import Mathlib

/-!
Verification of the CK2 world-building engine (`CK2::World`, `World.cpp`):
reference linking aftermath, political restructuring (HRE shattering, vassal
splitting, barony merging), sovereignty classification, province sanity
checking, succession resolution and the degraded-data recovery loop.

The C++ entity tables (`std::map` keyed by id/tag holding `shared_ptr`s into a
single owning table) are embedded as association lists; relationships are kept
as id/tag references resolved through the owning table, mirroring the shared
ownership of the source.  `double` quantities (prestige, the vassal-liberation
threshold) are embedded as exact rationals.
-/

namespace CK2World

/-- Insertion step of a stable insertion sort: place `a` before the first
element `b` with `le a b`. -/
def insertLe (le : α → α → Bool) (a : α) : List α → List α
  | [] => [a]
  | b :: bs => if le a b then a :: b :: bs else b :: insertLe le a bs

/-- Stable insertion sort; models `std::sort` wherever the comparison keys are
distinct (ties in `std::sort` are unspecified, and the source compares
`shared_ptr` addresses on tied keys). -/
def sortLe (le : α → α → Bool) : List α → List α
  | [] => []
  | a :: as => insertLe le a (sortLe le as)

/-- Models `s.find(p) == 0` on `std::string`: `p` is a leading substring. -/
def hasPfx (p s : String) : Bool := p.data.isPrefixOf s.data

/-- The null death-date sentinel `date("1.1.1")`: a character whose death date
equals it is alive. -/
def nullDate : String := "1.1.1"

/-- `std::lround`: round half away from zero. -/
def lround (q : ℚ) : ℤ := if q < 0 then -⌊-q + 1/2⌋ else ⌊q + 1/2⌋

/-- A CK2 character (the fields the engine reads).  `prestige` is a `double`
in the source, embedded as an exact rational. -/
structure Character where
  id : Nat := 0
  name : String := ""
  female : Bool := false
  religion : String := ""
  culture : String := ""
  government : String := ""
  prestige : ℚ := 0
  deathDate : String := nullDate
  host : Nat := 0
  job : String := ""
  deriving DecidableEq

/-- A CK2 title.  `holder = 0` models the null `pair<int, shared_ptr>` (no
holder); `liege = ""` models an empty liege pair.  Vassals are stored as tags
resolved through the owning title table, mirroring the shared pointers of the
source. -/
structure Title where
  name : String := ""
  holder : Nat := 0
  liege : String := ""
  deJureLiege : String := ""
  vassals : List String := []
  provinces : List Nat := []
  successionLaw : String := ""
  genderLaw : String := ""
  inHRE : Bool := false
  hreEmperor : Bool := false
  generatedLiege : String := ""
  generatedVassals : List String := []
  deriving DecidableEq

/-- The owning title table (`std::map<std::string, std::shared_ptr<Title>>`),
embedded as an association list in key order. -/
abbrev TitleMap : Type := List (String × Title)

/-- Dereference a tag through the owning table (a `shared_ptr` lookup). -/
def lookupT (m : TitleMap) (k : String) : Option Title :=
  (List.find? (fun e => e.1 == k) m).map (fun e => e.2)

/-- In-place mutation of the title registered under `k` (the shared object all
references point to). -/
def updateT (m : TitleMap) (k : String) (f : Title → Title) : TitleMap :=
  List.map (fun e => if e.1 == k then (e.1, f e.2) else e) m

/-- Lexicographic order on character lists. -/
def listLtB : List Char → List Char → Bool
  | [], [] => false
  | [], _ :: _ => true
  | _ :: _, [] => false
  | a :: as, b :: bs => if a < b then true else if b < a then false else listLtB as bs

/-- `std::string::operator<`: lexicographic comparison (byte order and
code-point order agree on the ASCII tags of this domain). -/
def strLt (a b : String) : Bool := listLtB a.data b.data

/-- `std::map`/`std::set` insertion of a key into a sorted key list:
no overwrite when the key is already present. -/
def keyInsert (k : String) : List String → List String
  | [] => [k]
  | e :: es => if strLt k e then k :: e :: es else if k == e then e :: es else e :: keyInsert k es

/-- `std::set<int>` insertion. -/
def natInsert (k : Nat) : List Nat → List Nat
  | [] => [k]
  | e :: es => if k < e then k :: e :: es else if k = e then e :: es else e :: natInsert k es

/-! ## Succession resolvers (`determineHeirs` helpers) -/

/-- `CK2::World::resolveTurkish`: build `(lround(prestige), child)` pairs,
`std::sort` them ascending, assign the first living child as heir.  Ties on
rounded prestige are broken by `shared_ptr` address in the source
(unspecified); the stable sort used here agrees with the source whenever the
rounded prestiges are distinct. -/
def resolveTurkish (children : List (Nat × Character)) : Option (Nat × Character) :=
  let childVector := sortLe (fun a b => a.1 ≤ b.1)
    (children.map (fun c => (lround c.2.prestige, c.2)))
  match childVector.find? (fun c => c.2.deathDate == nullDate) with
  | some c => some (c.2.id, c.2)
  | none => none

/-- One iteration of the primogeniture candidate scan: track a best son and
best daughter, and let a same-sex living candidate whose map key is exactly
one greater than the current pick replace it. -/
def primoStep (sd : (Nat × Character) × (Nat × Character)) (child : Nat × Character) :
    (Nat × Character) × (Nat × Character) :=
  if child.2.deathDate ≠ nullDate then sd
  else
    let son := sd.1
    let daughter := sd.2
    let son := if son.1 = 0 ∧ ¬child.2.female then child else son
    let son := if son.1 ≠ 0 ∧ ¬child.2.female ∧ son.1 = child.1 - 1 then child else son
    let daughter := if daughter.1 = 0 ∧ child.2.female then child else daughter
    let daughter :=
      if daughter.1 ≠ 0 ∧ child.2.female ∧ daughter.1 = child.1 - 1 then child else daughter
    (son, daughter)

/-- `CK2::World::resolvePrimogeniture`: children sorted ascending by map key
(smaller id = earlier character), candidate scan with the id+1 lookahead, then
dispatch on the gender law, including the `true_cognatic` adjacent-id
override.  Returns the `setHeir` argument, `none` when no heir is set. -/
def resolvePrimogeniture (genderLaw : String) (children : List (Nat × Character)) :
    Option (Nat × Character) :=
  let childVector := sortLe (fun a b => a.1 ≤ b.1) children
  let sd := childVector.foldl primoStep ((0, {}), (0, {}))
  let son := sd.1
  let daughter := sd.2
  if (genderLaw = "agnatic" ∨ genderLaw = "cognatic") ∧ son.1 ≠ 0 then some son
  else if genderLaw = "cognatic" ∧ daughter.1 ≠ 0 then some daughter
  else if genderLaw = "true_cognatic" ∧ (son.1 ≠ 0 ∨ daughter.1 ≠ 0) then
    if son.1 ≠ 0 ∧ daughter.1 ≠ 0 then
      let pick := if son.1 < daughter.1 then son else daughter
      let pick := if son.1 = daughter.1 - 1 then daughter else pick
      let pick := if daughter.1 = son.1 - 1 then son else pick
      some pick
    else if son.1 ≠ 0 then some son
    else some daughter
  else none

/-- One iteration of the ultimogeniture candidate scan: first living child of
each sex in the (descending) traversal wins; no adjacent-id lookahead. -/
def ultimoStep (sd : (Nat × Character) × (Nat × Character)) (child : Nat × Character) :
    (Nat × Character) × (Nat × Character) :=
  if child.2.deathDate ≠ nullDate then sd
  else
    let son := sd.1
    let daughter := sd.2
    let son := if son.1 = 0 ∧ ¬child.2.female then child else son
    let daughter := if daughter.1 = 0 ∧ child.2.female then child else daughter
    (son, daughter)

/-- The son/daughter candidates of `resolveUltimogeniture`: children sorted
descending by map key (`std::sort(rbegin, rend)`), first living of each sex. -/
def ultimoCandidates (children : List (Nat × Character)) :
    (Nat × Character) × (Nat × Character) :=
  (sortLe (fun a b => b.1 ≤ a.1) children).foldl ultimoStep ((0, {}), (0, {}))

/-- `CK2::World::resolveUltimogeniture`: youngest-first primogeniture; the
`true_cognatic` branch has no adjacent-id override. -/
def resolveUltimogeniture (genderLaw : String) (children : List (Nat × Character)) :
    Option (Nat × Character) :=
  let sd := ultimoCandidates children
  let son := sd.1
  let daughter := sd.2
  if (genderLaw = "agnatic" ∨ genderLaw = "cognatic") ∧ son.1 ≠ 0 then some son
  else if genderLaw = "cognatic" ∧ daughter.1 ≠ 0 then some daughter
  else if genderLaw = "true_cognatic" ∧ (son.1 ≠ 0 ∨ daughter.1 ≠ 0) then
    if son.1 ≠ 0 ∧ daughter.1 ≠ 0 then
      some (if son.1 < daughter.1 then son else daughter)
    else if son.1 ≠ 0 then some son
    else some daughter
  else none

/-! ## HRE shattering (`shatterHRE`) -/

/-- `ConfigurationDetails::I_AM_HRE`. -/
inductive IAmHRE
  | NONE
  | HRE
  | BYZANTIUM
  | ROME
  | CUSTOM
  deriving DecidableEq

/-- The configuration slice `shatterHRE` reads: the HRE mode and the
custom-mapped tag (`iAmHreMapper.getHRE()`). -/
structure Configuration where
  hre : IAmHRE := IAmHRE.NONE
  customHRE : String := ""
  deriving DecidableEq

/-- The designated empire tag selected by the `switch` in `shatterHRE`; the
`default` branch (unreachable once NONE is excluded) also yields `e_hre`. -/
def hreTag (cfg : Configuration) : String :=
  match cfg.hre with
  | IAmHRE.HRE => "e_hre"
  | IAmHRE.BYZANTIUM => "e_byzantium"
  | IAmHRE.ROME => "e_roman_empire"
  | IAmHRE.CUSTOM => cfg.customHRE
  | IAmHRE.NONE => "e_hre"

/-- Bricking a title: `clearVassals(); clearHolder(); clearLiege()`. -/
def brick (t : Title) : Title := { t with vassals := [], holder := 0, liege := "" }

/-- One iteration of the first loop of `shatterHRE`: duchy/county vassals and
the two protected kingdoms join the member map; every other kingdom
contributes its direct vassals as members and is bricked in place;
other prefixes are ignored (logged).  Members are kept as tags (the source
keeps `shared_ptr`s into the owning table). -/
def collectHREStep (acc : List String × TitleMap) (v : String) : List String × TitleMap :=
  if hasPfx "d_" v || hasPfx "c_" v then (keyInsert v acc.1, acc.2)
  else if hasPfx "k_" v then
    if v = "k_papal_state" ∨ v = "k_orthodox" then (keyInsert v acc.1, acc.2)
    else
      match lookupT acc.2 v with
      | some vt =>
        (vt.vassals.foldl (fun ms vv => keyInsert vv ms) acc.1, updateT acc.2 v brick)
      | none => acc
  else acc

/-- First loop of `shatterHRE` over the designated empire's vassals. -/
def collectHREMembers (titles : TitleMap) (vassalTags : List String) :
    List String × TitleMap :=
  vassalTags.foldl collectHREStep ([], titles)

/-- The emperor designation predicate of the second loop: the member's holder
(read through the owning table) equals the empire's holder. -/
def holderMatches (titles : TitleMap) (h : Nat) (m : String) : Bool :=
  match lookupT titles m with
  | some mt => mt.holder == h
  | none => false

/-- One iteration of the second loop of `shatterHRE`: when the member still
resolves, possibly flag it as the emperor (first member whose holder equals
the empire's holder), flag it in-HRE and clear its liege. -/
def flagHREStep (hreHolder : Nat) (acc : TitleMap × Bool) (m : String) : TitleMap × Bool :=
  match lookupT acc.1 m with
  | some mt =>
    (updateT acc.1 m
      (fun t =>
        { (if !acc.2 && (mt.holder == hreHolder) then { t with hreEmperor := true } else t)
            with inHRE := true, liege := "" }),
     acc.2 || (!acc.2 && (mt.holder == hreHolder)))
  | none => acc

/-- Second loop of `shatterHRE`: walk the member map in key order with the
`emperorSet` flag threaded through. -/
def flagHREMembers (hreHolder : Nat) (memberTags : List String) (titles : TitleMap) :
    TitleMap :=
  (memberTags.foldl (flagHREStep hreHolder) (titles, false)).1

/-- `CK2::World::shatterHRE`: guard on the configured mode, the presence of
the designated empire, and the presence of vassals; then collect and brick,
flag and free the members, and strip the empire of vassals and holder.  The
second component is the log stream (the guard messages). -/
def shatterHRE (cfg : Configuration) (titles : TitleMap) : TitleMap × List String :=
  if cfg.hre = IAmHRE.NONE then
    (titles, ["HRE Mechanics and shattering overridden by configuration."])
  else
    let tag := hreTag cfg
    match lookupT titles tag with
    | none => (titles, ["HRE shattering cancelled, " ++ tag ++ " not found!"])
    | some theHre =>
      if theHre.vassals = [] then
        (titles, ["HRE shattering cancelled, " ++ tag ++ " has no vassals!"])
      else
        let hreHolder := theHre.holder
        let collected := collectHREMembers titles theHre.vassals
        let ts2 := flagHREMembers hreHolder collected.1 collected.2
        (updateT ts2 tag (fun t => { t with vassals := [], holder := 0 }),
         [toString collected.1.length ++ " HRE members released."])

/-! ## Sovereignty classifier, vassal splitting, barony merge, sanity check -/

/-- Modelled from the spec: `Title::coalesceProvinces` (source file not in the
sample) recursively walks the title's live vassal tree and unions the province
sets of every title in the tree.  The union is a `std::map<int, ...>` key set;
fuel bounds the recursion depth (the source recursion terminates because real
liege/vassal graphs are acyclic). -/
def coalesceProvinces (m : TitleMap) : Nat → Title → List Nat
  | 0, t => t.provinces.foldl (fun acc p => natInsert p acc) []
  | fuel + 1, t =>
    t.vassals.foldl
      (fun acc v =>
        match lookupT m v with
        | some vt => (coalesceProvinces m fuel vt).foldl (fun a p => natInsert p a) acc
        | none => acc)
      (t.provinces.foldl (fun acc p => natInsert p acc) [])

/-- The aggregated province set of a vassal tag, resolved through the owning
table (`vassal.second->coalesceProvinces()`). -/
def vassalCoalesce (m : TitleMap) (fuel : Nat) (v : String) : List Nat :=
  match lookupT m v with
  | some vt => coalesceProvinces m fuel vt
  | none => []

/-- The one-tier-down vassal tag prefix of `splitVassals`: `e_` lieges look at
`k_` vassals, `k_` lieges at `d_` vassals, and counties are never split. -/
def relevantVassalPfx (tag : String) : Option String :=
  if hasPfx "e_" tag then some "k_"
  else if hasPfx "k_" tag then some "d_"
  else none

/-- `title.second->getHolder().second->getGovernment()`: the holder's
government string, read through the character table (a default empty
character stands in for the null pointer an unresolved holder would be). -/
def holderGov (chars : List (Nat × Character)) (t : Title) : String :=
  (((chars.find? (fun (e : Nat × Character) => e.1 == t.holder)).map
    (fun e => e.2)).getD ({} : Character)).government

/-- The liberation threshold
`static_cast<double>(provincesClaimed.size()) / relevantVassals
 + 0.1 * provincesClaimed.size()` (`double` arithmetic embedded as exact
rationals). -/
def splitThreshold (T N : Nat) : ℚ := (T : ℚ) / (N : ℚ) + (1 / 10) * (T : ℚ)

/-- The body of the liberation loop of `splitVassals`, for one vassal tag:
skip tags without the one-tier-down prefix, skip vassals held by the liege's
own character, and liberate when the vassal's aggregated province count
strictly exceeds the threshold. -/
def liberates (titles : TitleMap) (t : Title) (pfx : String) (th : ℚ) (v : String) :
    Option String :=
  if ¬hasPfx pfx v then none
  else
    match lookupT titles v with
    | none => none
    | some vt =>
      if vt.holder = t.holder then none
      else if ((coalesceProvinces titles titles.length vt).length : ℚ) > th then some v
      else none

/-- The per-liege scan of `splitVassals`: protected tags and tribal/nomadic
governments are skipped; `relevantVassals` counts land-holding vassals with
the one-tier-down prefix; a vassal is liberated per `liberates`.  (The source
computes the count and the liege's claim once into locals; they are inlined
here.) -/
def splitCandidatesOf (chars : List (Nat × Character)) (titles : TitleMap)
    (tag : String) (t : Title) : List String :=
  if tag = "k_papal_state" ∨ tag = "e_outremer" ∨ tag = "e_china_west_governor" then []
  else if holderGov chars t = "tribal_government" ∨ holderGov chars t = "nomadic_government"
  then []
  else
    match relevantVassalPfx tag with
    | none => []
    | some pfx =>
      if t.vassals.countP
          (fun v => hasPfx pfx v && !(vassalCoalesce titles titles.length v).isEmpty) = 0
      then []
      else
        t.vassals.filterMap
          (liberates titles t pfx
            (splitThreshold (coalesceProvinces titles titles.length t).length
              (t.vassals.countP
                (fun v => hasPfx pfx v && !(vassalCoalesce titles titles.length v).isEmpty))))

/-- The `newIndeps` map of `splitVassals`: the liberation candidates of every
independent title, collected in key order. -/
def collectSplitCandidates (chars : List (Nat × Character)) (titles : TitleMap)
    (indeps : List String) : List String :=
  indeps.foldl
    (fun acc itag =>
      match lookupT titles itag with
      | some it => (splitCandidatesOf chars titles itag it).foldl
          (fun a v => keyInsert v a) acc
      | none => acc)
    []

/-- Freeing one liberated vassal: register it as a generated vassal of its
liege, clear its liege and record the generated-liege back-reference.
`registerGeneratedVassal`/`registerGeneratedLiege` are modelled from the spec
(back-references flagging engine-generated independents). -/
def freeVassal (ts : TitleMap) (nTag : String) : TitleMap :=
  match lookupT ts nTag with
  | none => ts
  | some nt =>
    updateT
      (updateT ts nt.liege
        (fun lt => { lt with generatedVassals := lt.generatedVassals ++ [nTag] }))
      nTag (fun x => { x with liege := "", generatedLiege := nt.liege })

/-- `CK2::World::splitVassals`: collect the liberation candidates of every
independent title into the `newIndeps` map, then free each one and insert it
into the independent-title set. -/
def splitVassals (chars : List (Nat × Character)) (titles : TitleMap)
    (indeps : List String) : TitleMap × List String :=
  let newIndeps := collectSplitCandidates chars titles indeps
  (newIndeps.foldl freeVassal titles, newIndeps.foldl (fun ind v => keyInsert v ind) indeps)

/-- `CK2::World::filterIndependentTitles`: potential independents are titles
with a holder and an empty liege; county holders are the holders of `c_`
titles; an independent title is recognized when its holder is a county
holder. -/
def filterIndependentTitles (titles : TitleMap) : List String :=
  let potentialIndeps := titles.filter (fun e => e.2.holder ≠ 0 ∧ e.2.liege = "")
  let countyHolders :=
    titles.foldl
      (fun s e =>
        if e.2.holder ≠ 0 ∧ hasPfx "c_" e.2.name then natInsert e.2.holder s else s)
      []
  (potentialIndeps.filter (fun e => e.2.holder ∈ countyHolders)).map (fun e => e.1)

/-- Modelled from the spec: `Title::overrideLiege` (source file not in the
sample) reattaches the title under its de-jure liege. -/
def overrideLiege (t : Title) : Title := { t with liege := t.deJureLiege }

/-- `CK2::World::mergeIndependentBaronies`: every title with a holder, an
empty liege, a `b_` tag and a `c_` de-jure liege gets the liege override;
nothing else is touched. -/
def mergeIndependentBaronies (titles : TitleMap) : TitleMap :=
  titles.map
    (fun e =>
      if e.2.holder ≠ 0 ∧ e.2.liege = "" ∧ hasPfx "b_" e.1 ∧ hasPfx "c_" e.2.deJureLiege
      then (e.1, overrideLiege e.2)
      else e)

/-- `CK2::World::filterProvincelessTitles`: drop independents whose province
set is empty. -/
def filterProvincelessTitles (titles : TitleMap) (indeps : List String) : List String :=
  indeps.filter (fun g => !((lookupT titles g).getD {}).provinces.isEmpty)

/-- The `provinceTitlesMap` accumulator of `sanityCheckifyProvinces`:
`provinceTitlesMap[province].push_back(indepTag)` on a `std::map<int,
std::vector<std::string>>`, embedded as a key-sorted association list. -/
def pushOwner (p : Nat) (tag : String) : List (Nat × List String) → List (Nat × List String)
  | [] => [(p, [tag])]
  | e :: es =>
    if p < e.1 then (p, [tag]) :: e :: es
    else if p = e.1 then (e.1, e.2 ++ [tag]) :: es
    else e :: pushOwner p tag es

/-- The province set of an independent title, resolved through the owning
table (`indep.second->getProvinces()`). -/
def provsOf (titles : TitleMap) (g : String) : List Nat :=
  ((lookupT titles g).getD {}).provinces

/-- All claimants of every province: walk the independent titles in key order
and push each title onto every province it owns. -/
def provinceTitlesMapOf (titles : TitleMap) (indeps : List String) :
    List (Nat × List String) :=
  indeps.foldl
    (fun m g => (provsOf titles g).foldl (fun m2 p => pushOwner p g m2) m)
    []

/-- `CK2::World::sanityCheckifyProvinces`: a watchdog that reads the
independent titles' province sets and emits one warning per province claimed
by more than one independent title, naming every claimant.  The state is
returned untouched (the source mutates nothing); warnings are kept structured
as (province id, claimant tags) — the source formats each pair into a log
string. -/
def sanityCheckifyProvinces (titles : TitleMap) (indeps : List String) :
    (TitleMap × List String) × List (Nat × List String) :=
  ((titles, indeps), (provinceTitlesMapOf titles indeps).filter (fun e => e.2.length > 1))

/-! ## Degraded-data recovery (`verifyReligionsAndCultures`) -/

/-- A supplementary-data source (one mod).  `load` is modelled from the spec:
`Dynasties::underLoadDynasties` merges additional dynasty records whose effect
on the character table (religion/culture backfill) is treated as a black
box. -/
structure ModSource where
  name : String := ""
  hasDynFolder : Bool := false
  load : List (Nat × Character) → List (Nat × Character) := id

/-- A character lacking a religion or a culture (the `insanityCounter`
predicate). -/
def charInsane (c : Character) : Bool := c.religion == "" || c.culture == ""

/-- The `insanityCounter` loop over the character table. -/
def insanityCount (chars : List (Nat × Character)) : Nat :=
  chars.countP (fun e => charInsane e.2)

/-- The rummage loop of `loadDynastiesFromMods`: mods without a dynasty folder
are skipped without a recheck; after loading from a mod with one, the
insanity counter is recomputed and the loop stops (sane) when it hits zero.
Returns the character table and the `weAreSane` flag. -/
def rummage : List ModSource → List (Nat × Character) → List (Nat × Character) × Bool
  | [], chars => (chars, false)
  | m :: rest, chars =>
    if m.hasDynFolder then
      let chars2 := m.load chars
      if insanityCount chars2 = 0 then (chars2, true) else rummage rest chars2
    else rummage rest chars

/-- `CK2::World::loadDynastiesFromMods`: run the rummage loop; the trailing
Bool is the `"We did what we could."` warning, emitted exactly when the loop
ended without reaching sanity.  The function always returns normally. -/
def loadDynastiesFromMods (sources : List ModSource) (chars : List (Nat × Character)) :
    (List (Nat × Character) × Bool) × Bool :=
  let r := rummage sources chars
  (r, !r.2)

/-- `CK2::World::verifyReligionsAndCultures`: count characters with missing
religion or culture; when the count is zero return at once, otherwise invoke
`loadDynastiesFromMods`.  The Bool records whether the loader was invoked. -/
def verifyReligionsAndCultures (sources : List ModSource)
    (chars : List (Nat × Character)) : List (Nat × Character) × Bool :=
  if insanityCount chars = 0 then (chars, false)
  else ((loadDynastiesFromMods sources chars).1.1, true)

/-- The cumulative effect of loading from a list of sources (folder-less mods
contribute nothing). -/
def applyFolders (sources : List ModSource) (chars : List (Nat × Character)) :
    List (Nat × Character) :=
  sources.foldl (fun c m => if m.hasDynFolder then m.load c else c) chars

/-- No source in the list reaches sanity at its recheck point: every mod with
a dynasty folder still leaves an insane character after its load. -/
def noEarlySanity (sources : List ModSource) (chars : List (Nat × Character)) : Prop :=
  ∀ p1 m1 p2, sources = p1 ++ m1 :: p2 → m1.hasDynFolder = true →
    insanityCount (m1.load (applyFolders p1 chars)) ≠ 0

/-! ## Statement helpers -/

/-- Lookup in the `provinceTitlesMap` accumulator. -/
def lookupO (m : List (Nat × List String)) (q : Nat) : List String :=
  ((m.find? (fun e => e.1 == q)).map (fun e => e.2)).getD []

/-- The member contribution of one direct vassal of the designated empire:
itself for duchy/county vassals and for the two protected kingdoms, its own
direct vassals for every other kingdom, and nothing otherwise. -/
def hreBranch (m : TitleMap) (v : String) : List String :=
  if hasPfx "d_" v || hasPfx "c_" v then [v]
  else if hasPfx "k_" v then
    if v = "k_papal_state" ∨ v = "k_orthodox" then [v]
    else ((lookupT m v).map Title.vassals).getD []
  else []

/-- The member set collected by the first loop of `shatterHRE`, described
pointwise. -/
def hreMemberSpec (m : TitleMap) (vtags : List String) : List String :=
  vtags.flatMap (hreBranch m)

/-- A kingdom-tier vassal that is not one of the two protected ones: the
first loop bricks exactly these. -/
def brickedCond (v : String) : Bool :=
  !(hasPfx "d_" v || hasPfx "c_" v) && hasPfx "k_" v &&
    !(v == "k_papal_state" || v == "k_orthodox")

/-- The kingdoms bricked by the first loop of `shatterHRE`. -/
def brickedSpec (vtags : List String) : List String :=
  vtags.filter brickedCond

/-- The per-member transformation applied by the second loop of `shatterHRE`:
the first member (in member-map order) whose holder equals the empire's
holder gains the emperor flag; every member is flagged in-HRE and loses its
liege. -/
def flagXform (ts1 : TitleMap) (h : Nat) (ms : List String) (n : String) (t : Title) : Title :=
  let t1 := if ms.find? (holderMatches ts1 h) = some n then { t with hreEmperor := true } else t
  { t1 with inHRE := true, liege := "" }

/-! ## Concrete scenarios -/

/-- Turkish test child with rounded prestige 5. -/
def turkChildA : Character := { id := 1, prestige := 5 }

/-- Turkish test child with rounded prestige 20. -/
def turkChildB : Character := { id := 2, prestige := 20 }

/-- Turkish test child with rounded prestige 9. -/
def turkChildC : Character := { id := 3, prestige := 9 }

/-- The id-10 living son of the C6 witness scenario. -/
def sonTen : Character := { id := 10 }

/-- The id-11 living son of the C6 witness scenario. -/
def sonEleven : Character := { id := 11 }

/-- The id-10 living son of the C7 witness scenario. -/
def ultSon : Character := { id := 10 }

/-- The id-11 living daughter of the C7 witness scenario. -/
def ultDaughter : Character := { id := 11, female := true }

/-- C8 counterexample: an independent barony with no holder whose de-jure
liege is a county — the source skips it (`if (!holder.first) continue`). -/
def strayBarony : Title := { name := "b_x", holder := 0, liege := "", deJureLiege := "c_y" }

/-- The one-entry title table of the C8 counterexample. -/
def strayTitles : TitleMap := [("b_x", strayBarony)]

/-- HRE witness scenario: the empire, holder 5, three vassals. -/
def hreEmpire : Title := { name := "e_hre", holder := 5, vassals := ["d_a", "k_bad", "k_papal_state"] }

/-- The emperor's own duchy (holder equals the empire's holder). -/
def hreDuchyA : Title := { name := "d_a", holder := 5, liege := "e_hre" }

/-- A kingdom-tier vassal that gets bricked. -/
def hreKingdomBad : Title := { name := "k_bad", holder := 6, liege := "e_hre", vassals := ["d_b", "d_c"] }

/-- The protected papal kingdom, kept with its own vassals. -/
def hrePapal : Title := { name := "k_papal_state", holder := 7, liege := "e_hre", vassals := ["b_rome"] }

/-- A duchy under the bricked kingdom. -/
def hreDuchyB : Title := { name := "d_b", holder := 8, liege := "k_bad" }

/-- Another duchy under the bricked kingdom. -/
def hreDuchyC : Title := { name := "d_c", holder := 9, liege := "k_bad" }

/-- The papal kingdom's own barony vassal. -/
def hreRome : Title := { name := "b_rome", holder := 7, liege := "k_papal_state" }

/-- The HRE witness title table. -/
def hreTitles : TitleMap :=
  [("b_rome", hreRome), ("d_a", hreDuchyA), ("d_b", hreDuchyB), ("d_c", hreDuchyC),
   ("e_hre", hreEmpire), ("k_bad", hreKingdomBad), ("k_papal_state", hrePapal)]

/-- The HRE-enabled configuration of the witness scenarios. -/
def hreCfg : Configuration := { hre := IAmHRE.HRE }

/-- C4 counterexample: the emperor character (feudal, so the split runs). -/
def splitHolder : Character := { id := 7, government := "feudal_government" }

/-- C4 counterexample: holder of the small kingdom. -/
def splitOtherHolder : Character := { id := 9 }

/-- C4 counterexample character table. -/
def splitChars : List (Nat × Character) := [(7, splitHolder), (9, splitOtherHolder)]

/-- C4 counterexample: the independent empire (holder 7 holds the county). -/
def splitEmpire : Title := { name := "e_emp", holder := 7, vassals := ["c_home", "k_bad2", "k_other"] }

/-- C4 counterexample: the county making holder 7 a county holder. -/
def splitCounty : Title := { name := "c_home", holder := 7, liege := "e_emp" }

/-- C4 counterexample: a HOLDERLESS kingdom vassal with six provinces —
enough land to be liberated, yet no resolvable holder. -/
def splitKingdomBad : Title :=
  { name := "k_bad2", holder := 0, liege := "e_emp", provinces := [1, 2, 3, 4, 5, 6] }

/-- C4 counterexample: a second land-holding kingdom vassal. -/
def splitKingdomOther : Title :=
  { name := "k_other", holder := 9, liege := "e_emp", provinces := [7] }

/-- C4 counterexample title table. -/
def splitTitles : TitleMap :=
  [("c_home", splitCounty), ("e_emp", splitEmpire), ("k_bad2", splitKingdomBad),
   ("k_other", splitKingdomOther)]

/-- C3 witness (boundary, not liberated): the liege empire with two kingdom
vassals.  Total claim T = 10, relevant vassals N = 2, threshold = 10/2 + 1 =
6; the 6-province vassal sits exactly at floor(threshold). -/
def boundaryEmpireA : Title := { name := "e_x", holder := 7, vassals := ["k_a", "k_b"] }

/-- Four-province kingdom of the first boundary world. -/
def boundaryKA : Title := { name := "k_a", holder := 8, liege := "e_x", provinces := [1, 2, 3, 4] }

/-- Six-province kingdom of the first boundary world: count = floor(6.0). -/
def boundaryKB : Title :=
  { name := "k_b", holder := 9, liege := "e_x", provinces := [5, 6, 7, 8, 9, 10] }

/-- First boundary world (T = 10, N = 2, threshold 6.0, vassal at 6). -/
def boundaryTitlesA : TitleMap :=
  [("e_x", boundaryEmpireA), ("k_a", boundaryKA), ("k_b", boundaryKB)]

/-- Three-province kingdom of the second boundary world. -/
def boundaryKA2 : Title := { name := "k_a", holder := 8, liege := "e_x", provinces := [1, 2, 3] }

/-- Seven-province kingdom of the second boundary world: count = floor(6.0)+1. -/
def boundaryKB2 : Title :=
  { name := "k_b", holder := 9, liege := "e_x", provinces := [4, 5, 6, 7, 8, 9, 10] }

/-- Second boundary world (T = 10, N = 2, threshold 6.0, vassal at 7). -/
def boundaryTitlesB : TitleMap :=
  [("e_x", boundaryEmpireA), ("k_a", boundaryKA2), ("k_b", boundaryKB2)]

/-- C4 witness: an empire whose vassals all have resolvable holders. -/
def calmEmpire : Title := { name := "e_x", holder := 7, provinces := [1], vassals := ["c_y"] }

/-- C4 witness: the county held by the empire's holder. -/
def calmCounty : Title := { name := "c_y", holder := 7, liege := "e_x" }

/-- C4 witness title table. -/
def calmTitles : TitleMap := [("c_y", calmCounty), ("e_x", calmEmpire)]

/-- C5 witness: a county claiming province 5. -/
def overlapCountyA : Title := { name := "c_a", holder := 1, provinces := [5] }

/-- C5 witness: a second county also claiming province 5. -/
def overlapCountyB : Title := { name := "c_b", holder := 2, provinces := [5, 6] }

/-- C5 witness title table. -/
def overlapTitles : TitleMap := [("c_a", overlapCountyA), ("c_b", overlapCountyB)]

/-- C9 witness: a mod without a dynasty folder. -/
def modNoFolder : ModSource := { name := "cosmetic" }

/-- C9 witness: a mod whose dynasty records backfill every character. -/
def modFixer : ModSource :=
  { name := "fixer", hasDynFolder := true,
    load := fun cs => cs.map (fun e => (e.1, { e.2 with religion := "r", culture := "c" })) }

/-- C9 witness: one character missing a religion. -/
def insaneChar : Character := { id := 1, culture := "norse" }

/-- C9 witness character table. -/
def insaneChars : List (Nat × Character) := [(1, insaneChar)]

/-! ## Map and ordering lemmas -/

theorem listLtB_irrefl (l : List Char) : listLtB l l = false := by
  induction l with
  | nil => rfl
  | cons a as ih => simp [listLtB, ih]

theorem listLtB_cons_iff {x y : Char} {xs ys : List Char} :
    listLtB (x :: xs) (y :: ys) = true ↔ x < y ∨ (x = y ∧ listLtB xs ys = true) := by
  rcases lt_trichotomy x y with h | h | h
  · simp [listLtB, h]
  · subst h
    simp [listLtB, lt_irrefl]
  · simp [listLtB, lt_asymm h, h, h.ne']

theorem listLtB_trans {a b c : List Char} (hab : listLtB a b = true)
    (hbc : listLtB b c = true) : listLtB a c = true := by
  induction a generalizing b c with
  | nil =>
    cases b with
    | nil => simp [listLtB] at hab
    | cons y ys =>
      cases c with
      | nil => simp [listLtB] at hbc
      | cons z zs => rfl
  | cons x xs ih =>
    cases b with
    | nil => simp [listLtB] at hab
    | cons y ys =>
      cases c with
      | nil => simp [listLtB] at hbc
      | cons z zs =>
        rw [listLtB_cons_iff] at hab hbc ⊢
        rcases hab with h1 | ⟨rfl, h1⟩
        · rcases hbc with h2 | ⟨rfl, h2⟩
          · exact Or.inl (lt_trans h1 h2)
          · exact Or.inl h1
        · rcases hbc with h2 | ⟨rfl, h2⟩
          · exact Or.inl h2
          · exact Or.inr ⟨rfl, ih h1 h2⟩

theorem strLt_irrefl (a : String) : strLt a a = false := listLtB_irrefl a.data

theorem strLt_trans {a b c : String} (hab : strLt a b = true) (hbc : strLt b c = true) :
    strLt a c = true := listLtB_trans hab hbc

theorem listLtB_total {a b : List Char} (h1 : listLtB a b = false)
    (h2 : listLtB b a = false) : a = b := by
  induction a generalizing b with
  | nil =>
    cases b with
    | nil => rfl
    | cons y ys => simp [listLtB] at h1
  | cons x xs ih =>
    cases b with
    | nil => simp [listLtB] at h2
    | cons y ys =>
      have h1' : ¬(x < y ∨ (x = y ∧ listLtB xs ys = true)) := by
        rw [← listLtB_cons_iff]
        simp [h1]
      have h2' : ¬(y < x ∨ (y = x ∧ listLtB ys xs = true)) := by
        rw [← listLtB_cons_iff]
        simp [h2]
      push_neg at h1' h2'
      rcases lt_trichotomy x y with h | h | h
      · exact absurd h (not_lt.mpr h1'.1)
      · subst h
        rw [ih (Bool.eq_false_iff.mpr (h1'.2 rfl)) (Bool.eq_false_iff.mpr (h2'.2 rfl))]
      · exact absurd h (not_lt.mpr h2'.1)

theorem strLt_total {a b : String} (h1 : strLt a b = false) (h2 : strLt b a = false) :
    a = b := by
  have h := listLtB_total (a := a.data) (b := b.data) h1 h2
  cases a
  cases b
  exact congrArg String.mk h

theorem mem_keyInsert {x k : String} {l : List String} :
    x ∈ keyInsert k l ↔ x = k ∨ x ∈ l := by
  induction l with
  | nil => simp [keyInsert]
  | cons e es ih =>
    cases h1 : strLt k e with
    | true => simp [keyInsert, h1, List.mem_cons]
    | false =>
      cases h2 : k == e with
      | true =>
        have hke : k = e := by simpa using h2
        subst hke
        simp only [keyInsert, h1, Bool.false_eq_true, if_false, beq_self_eq_true, if_true,
          List.mem_cons]
        tauto
      | false =>
        simp only [keyInsert, h1, Bool.false_eq_true, if_false, h2, List.mem_cons, ih]
        tauto

theorem keyInsert_pairwise {k : String} {l : List String}
    (h : l.Pairwise (fun a b => strLt a b = true)) :
    (keyInsert k l).Pairwise (fun a b => strLt a b = true) := by
  induction l with
  | nil => simp [keyInsert]
  | cons e es ih =>
    rcases List.pairwise_cons.mp h with ⟨he, hes⟩
    cases h1 : strLt k e with
    | true =>
      have : keyInsert k (e :: es) = k :: e :: es := by simp [keyInsert, h1]
      rw [this]
      refine List.pairwise_cons.mpr ⟨?_, h⟩
      intro x hx
      rcases List.mem_cons.mp hx with rfl | hx
      · exact h1
      · exact strLt_trans h1 (he x hx)
    | false =>
      cases h2 : k == e with
      | true =>
        have hke : k = e := by simpa using h2
        subst hke
        have : keyInsert k (k :: es) = k :: es := by simp [keyInsert, h1]
        rw [this]
        exact h
      | false =>
        have hne : k ≠ e := by simpa using h2
        have hek : strLt e k = true := by
          cases h3 : strLt e k with
          | true => rfl
          | false => exact absurd (strLt_total h1 h3) hne
        have : keyInsert k (e :: es) = e :: keyInsert k es := by simp [keyInsert, h1, h2]
        rw [this]
        refine List.pairwise_cons.mpr ⟨?_, ih hes⟩
        intro x hx
        rcases mem_keyInsert.mp hx with rfl | hx
        · exact hek
        · exact he x hx

theorem pairwise_strLt_nodup {l : List String}
    (h : l.Pairwise (fun a b => strLt a b = true)) : l.Nodup := by
  refine h.imp ?_
  intro a b hab hEq
  subst hEq
  simp [strLt_irrefl] at hab

theorem mem_natInsert {x k : Nat} {l : List Nat} :
    x ∈ natInsert k l ↔ x = k ∨ x ∈ l := by
  induction l with
  | nil => simp [natInsert]
  | cons e es ih =>
    by_cases h1 : k < e
    · simp [natInsert, h1, List.mem_cons]
    · by_cases h2 : k = e
      · subst h2
        have heq : natInsert k (k :: es) = k :: es := by simp [natInsert, h1]
        rw [heq]
        simp only [List.mem_cons]
        tauto
      · have heq : natInsert k (e :: es) = e :: natInsert k es := by simp [natInsert, h1, h2]
        rw [heq]
        simp only [List.mem_cons, ih]
        tauto

theorem lookupT_cons_pos {e : String × Title} {es : TitleMap} {n : String} (h : e.1 = n) :
    lookupT (e :: es) n = some e.2 := by
  simp [lookupT, List.find?_cons_of_pos, h]

theorem lookupT_cons_neg {e : String × Title} {es : TitleMap} {n : String} (h : e.1 ≠ n) :
    lookupT (e :: es) n = lookupT es n := by
  simp only [lookupT]
  rw [List.find?_cons_of_neg]
  simpa using h

theorem lookupT_updateT (m : TitleMap) (k : String) (f : Title → Title) (n : String) :
    lookupT (updateT m k f) n = if n = k then (lookupT m k).map f else lookupT m n := by
  induction m with
  | nil => simp [lookupT, updateT]
  | cons e es ih =>
    have hcons : updateT (e :: es) k f =
        (if e.1 == k then (e.1, f e.2) else e) :: updateT es k f := rfl
    by_cases hek : e.1 = k
    · rw [hcons, if_pos (by simpa using hek)]
      by_cases hnk : n = k
      · subst hnk
        rw [lookupT_cons_pos (by simpa using hek), lookupT_cons_pos hek, if_pos rfl]
        rfl
      · have hen : e.1 ≠ n := fun hh => hnk (hh ▸ hek)
        rw [lookupT_cons_neg (e := (e.1, f e.2)) hen, ih, if_neg hnk, if_neg hnk,
          lookupT_cons_neg hen]
    · rw [hcons, if_neg (by simpa using hek)]
      by_cases hne : e.1 = n
      · rw [lookupT_cons_pos hne, lookupT_cons_pos hne]
        rw [if_neg (fun hh : n = k => hek (hne.trans hh))]
      · rw [lookupT_cons_neg hne, ih, lookupT_cons_neg hne]
        by_cases hnk : n = k
        · subst hnk
          rw [if_pos rfl, if_pos rfl, lookupT_cons_neg hek]
        · rw [if_neg hnk, if_neg hnk]

theorem lookupT_mem {m : TitleMap} {k : String} {t : Title} (h : lookupT m k = some t) :
    (k, t) ∈ m := by
  unfold lookupT at h
  cases hf : List.find? (fun e => e.1 == k) m with
  | none => rw [hf] at h; simp at h
  | some e =>
    rw [hf] at h
    have hmem := List.mem_of_find?_eq_some hf
    have hkey : e.1 = k := by simpa using List.find?_some hf
    have hval : e.2 = t := by simpa using h
    obtain ⟨a, b⟩ := e
    simp only at hkey hval
    subst hkey
    subst hval
    exact hmem

theorem lookupT_map_liege_elim {m : TitleMap} {k : String} {s : String}
    (h : (lookupT m k).map Title.liege = some s) :
    ∃ t, lookupT m k = some t ∧ t.liege = s := by
  cases hm : lookupT m k with
  | none => rw [hm] at h; simp at h
  | some t =>
    rw [hm] at h
    exact ⟨t, rfl, by simpa using h⟩

/-! ## Claim C1: Turkish succession (the sort direction) -/

/-- C1.  The claim says the resolver orders living children by descending
rounded prestige and picks the highest (prestige 20 among 5, 20, 9).  The
source sorts the `(lround(prestige), child)` vector ascending
(`std::sort(begin, end)`) and takes the first living entry, so the child with
the LOWEST rounded prestige (5) is assigned, not the child with prestige 20:
the code contradicts the spec's stated intent (its sibling
`resolveUltimogeniture` uses `rbegin/rend` where descending order is wanted). -/
theorem turkish_picks_lowest_prestige :
    lround turkChildA.prestige = 5 ∧ lround turkChildB.prestige = 20 ∧
    lround turkChildC.prestige = 9 ∧
    turkChildA.deathDate = nullDate ∧ turkChildB.deathDate = nullDate ∧
    turkChildC.deathDate = nullDate ∧
    resolveTurkish [(1, turkChildA), (2, turkChildB), (3, turkChildC)] =
      some (turkChildA.id, turkChildA) := by
  have h5 : lround turkChildA.prestige = 5 := by norm_num [lround, turkChildA]
  have h20 : lround turkChildB.prestige = 20 := by norm_num [lround, turkChildB]
  have h9 : lround turkChildC.prestige = 9 := by norm_num [lround, turkChildC]
  refine ⟨h5, h20, h9, rfl, rfl, rfl, ?_⟩
  simp only [resolveTurkish, List.map, h5, h20, h9]
  simp [sortLe, insertLe, List.find?, turkChildA, turkChildB, turkChildC, nullDate]

/-! ## Claim C6: primogeniture adjacent-id override -/

/-- C6.  For a holder whose children are exactly two living sons with map
keys 10 and 11 under gender law `agnatic`, the resolver assigns the son with
id 11: during the ascending scan the id-10 son is picked first, then the
same-sex living candidate whose id is exactly one greater replaces it. -/
theorem primogeniture_adjacent_son (c1 c2 : Character)
    (h1f : c1.female = false) (h2f : c2.female = false)
    (h1d : c1.deathDate = nullDate) (h2d : c2.deathDate = nullDate) :
    resolvePrimogeniture "agnatic" [(10, c1), (11, c2)] = some (11, c2) := by
  simp [resolvePrimogeniture, sortLe, insertLe, primoStep, h1f, h2f, h1d, h2d]

/-- C6 witness: the concrete two-son scenario. -/
theorem primogeniture_adjacent_son_witness :
    resolvePrimogeniture "agnatic" [(10, sonTen), (11, sonEleven)] = some (11, sonEleven) :=
  primogeniture_adjacent_son sonTen sonEleven rfl rfl rfl rfl

/-! ## Claim C7: ultimogeniture has no adjacent-id override -/

/-- C7.  Under gender law `true_cognatic`, whenever the ultimogeniture scan
produces both a living son candidate and a living daughter candidate, the
resolver assigns whichever candidate has the lower id, unconditionally: the
adjacent-id flip present in `resolvePrimogeniture` is absent. -/
theorem ultimogeniture_no_adjacent_override (children : List (Nat × Character))
    (hs : (ultimoCandidates children).1.1 ≠ 0)
    (hd : (ultimoCandidates children).2.1 ≠ 0) :
    resolveUltimogeniture "true_cognatic" children =
      some (if (ultimoCandidates children).1.1 < (ultimoCandidates children).2.1
            then (ultimoCandidates children).1
            else (ultimoCandidates children).2) := by
  simp [resolveUltimogeniture, hs, hd]

/-- C7 witness: son id 10 and daughter id 11 are adjacent; primogeniture's
override would flip to the daughter, ultimogeniture keeps the lower id. -/
theorem ultimogeniture_no_adjacent_override_witness :
    resolveUltimogeniture "true_cognatic" [(10, ultSon), (11, ultDaughter)] =
      some (10, ultSon) ∧ (10 : Nat) = 11 - 1 := by
  refine ⟨?_, by decide⟩
  have h := ultimogeniture_no_adjacent_override [(10, ultSon), (11, ultDaughter)]
    (by decide) (by decide)
  exact h.trans (by decide)

/-! ## Claim C8: barony merge -/

/-- C8 amended.  The barony merge applies the liege override exactly to the
titles with a NON-EMPTY HOLDER that are independent, `b_`-tagged and have a
`c_` de-jure liege, and touches nothing else: the source checks
`if (!holder.first) continue;` before the conditions the claim lists. -/
theorem merge_baronies_characterization (titles : TitleMap) (k : String) :
    lookupT (mergeIndependentBaronies titles) k =
      (lookupT titles k).map
        (fun t =>
          if t.holder ≠ 0 ∧ t.liege = "" ∧ hasPfx "b_" k ∧ hasPfx "c_" t.deJureLiege
          then overrideLiege t
          else t) := by
  induction titles with
  | nil => simp [lookupT, mergeIndependentBaronies]
  | cons e es ih =>
    have hcons : mergeIndependentBaronies (e :: es) =
        (if e.2.holder ≠ 0 ∧ e.2.liege = "" ∧ hasPfx "b_" e.1 ∧ hasPfx "c_" e.2.deJureLiege
         then (e.1, overrideLiege e.2)
         else e) :: mergeIndependentBaronies es := rfl
    by_cases hek : e.1 = k
    · subst hek
      by_cases hc : e.2.holder ≠ 0 ∧ e.2.liege = "" ∧ hasPfx "b_" e.1 ∧ hasPfx "c_" e.2.deJureLiege
      · rw [hcons, if_pos hc, lookupT_cons_pos (e := (e.1, overrideLiege e.2)) rfl,
          lookupT_cons_pos rfl]
        simp [hc]
      · rw [hcons, if_neg hc, lookupT_cons_pos rfl, lookupT_cons_pos rfl]
        simp [hc]
    · by_cases hc : e.2.holder ≠ 0 ∧ e.2.liege = "" ∧ hasPfx "b_" e.1 ∧ hasPfx "c_" e.2.deJureLiege
      · rw [hcons, if_pos hc, lookupT_cons_neg (e := (e.1, overrideLiege e.2)) hek,
          lookupT_cons_neg hek, ih]
      · rw [hcons, if_neg hc, lookupT_cons_neg hek, lookupT_cons_neg hek, ih]

/-- C8 counterexample.  `strayBarony` satisfies every condition the claim
lists — independent (empty liege), `b_` tag, `c_` de-jure liege — yet the
transform leaves it untouched (liege still empty, not the de-jure county),
because its holder is empty and the source skips holderless titles. -/
theorem merge_baronies_counterexample :
    strayBarony.liege = "" ∧ hasPfx "b_" "b_x" = true ∧
    hasPfx "c_" strayBarony.deJureLiege = true ∧
    lookupT (mergeIndependentBaronies strayTitles) "b_x" = some strayBarony ∧
    strayBarony.liege ≠ strayBarony.deJureLiege := by
  refine ⟨rfl, by decide, by decide, ?_, by decide⟩
  decide

/-! ## Claim C5: the province sanity check -/

theorem pushOwner_keys {p : Nat} {tag : String} {m : List (Nat × List String)} :
    ∀ e ∈ pushOwner p tag m, e.1 = p ∨ ∃ f ∈ m, e.1 = f.1 := by
  induction m with
  | nil =>
    intro e he
    rw [pushOwner] at he
    have := List.mem_singleton.mp he
    subst this
    exact Or.inl rfl
  | cons f fs ih =>
    intro e he
    by_cases h1 : p < f.1
    · rw [pushOwner, if_pos h1] at he
      rcases List.mem_cons.mp he with rfl | he2
      · exact Or.inl rfl
      · exact Or.inr ⟨e, he2, rfl⟩
    · by_cases h2 : p = f.1
      · rw [pushOwner, if_neg h1, if_pos h2] at he
        rcases List.mem_cons.mp he with rfl | he2
        · exact Or.inr ⟨f, List.mem_cons_self f fs, rfl⟩
        · exact Or.inr ⟨e, List.mem_cons_of_mem f he2, rfl⟩
      · rw [pushOwner, if_neg h1, if_neg h2] at he
        rcases List.mem_cons.mp he with rfl | he2
        · exact Or.inr ⟨e, List.mem_cons_self e fs, rfl⟩
        · rcases ih e he2 with h | ⟨g, hg, hge⟩
          · exact Or.inl h
          · exact Or.inr ⟨g, List.mem_cons_of_mem f hg, hge⟩

theorem pushOwner_pairwise {p : Nat} {tag : String} {m : List (Nat × List String)}
    (hs : m.Pairwise (fun a b => a.1 < b.1)) :
    (pushOwner p tag m).Pairwise (fun a b => a.1 < b.1) := by
  induction m with
  | nil => simp [pushOwner]
  | cons f fs ih =>
    rcases List.pairwise_cons.mp hs with ⟨hf, hfs⟩
    by_cases h1 : p < f.1
    · rw [pushOwner, if_pos h1]
      refine List.pairwise_cons.mpr ⟨?_, hs⟩
      intro x hx
      rcases List.mem_cons.mp hx with rfl | hx
      · exact h1
      · exact lt_trans h1 (hf x hx)
    · by_cases h2 : p = f.1
      · rw [pushOwner, if_neg h1, if_pos h2]
        exact List.pairwise_cons.mpr ⟨hf, hfs⟩
      · rw [pushOwner, if_neg h1, if_neg h2]
        refine List.pairwise_cons.mpr ⟨?_, ih hfs⟩
        intro x hx
        rcases pushOwner_keys x hx with hxp | ⟨g, hg, hxg⟩
        · rw [hxp]
          omega
        · have := hf g hg
          omega

theorem pushOwner_vals {p : Nat} {tag : String} {m : List (Nat × List String)}
    (hv : ∀ e ∈ m, e.2 ≠ []) : ∀ e ∈ pushOwner p tag m, e.2 ≠ [] := by
  induction m with
  | nil =>
    intro e he
    rw [pushOwner] at he
    have := List.mem_singleton.mp he
    subst this
    simp
  | cons f fs ih =>
    intro e he
    by_cases h1 : p < f.1
    · rw [pushOwner, if_pos h1] at he
      rcases List.mem_cons.mp he with rfl | he2
      · simp
      · exact hv e he2
    · by_cases h2 : p = f.1
      · rw [pushOwner, if_neg h1, if_pos h2] at he
        rcases List.mem_cons.mp he with rfl | he2
        · simp
        · exact hv e (List.mem_cons_of_mem f he2)
      · rw [pushOwner, if_neg h1, if_neg h2] at he
        rcases List.mem_cons.mp he with rfl | he2
        · exact hv e (List.mem_cons_self e fs)
        · exact ih (fun x hx => hv x (List.mem_cons_of_mem f hx)) e he2

theorem lookupO_nil_of_gt {p : Nat} {m : List (Nat × List String)}
    (h : ∀ e ∈ m, p < e.1) : lookupO m p = [] := by
  induction m with
  | nil => rfl
  | cons f fs ih =>
    have hne : (f.1 == p) = false := by
      have := h f (List.mem_cons_self f fs)
      simp
      omega
    simp only [lookupO, List.find?, hne]
    exact ih (fun e he => h e (List.mem_cons_of_mem f he))

theorem lookupO_pushOwner_self {p : Nat} {tag : String} {m : List (Nat × List String)}
    (hs : m.Pairwise (fun a b => a.1 < b.1)) :
    lookupO (pushOwner p tag m) p = lookupO m p ++ [tag] := by
  induction m with
  | nil => simp [pushOwner, lookupO, List.find?]
  | cons f fs ih =>
    rcases List.pairwise_cons.mp hs with ⟨hf, hfs⟩
    by_cases h1 : p < f.1
    · rw [pushOwner, if_pos h1]
      have hall : ∀ e ∈ f :: fs, p < e.1 := by
        intro e he
        rcases List.mem_cons.mp he with rfl | he
        · exact h1
        · exact lt_trans h1 (hf e he)
      rw [lookupO_nil_of_gt hall]
      simp [lookupO, List.find?]
    · by_cases h2 : p = f.1
      · rw [pushOwner, if_neg h1, if_pos h2]
        subst h2
        simp [lookupO, List.find?]
      · rw [pushOwner, if_neg h1, if_neg h2]
        have hne : (f.1 == p) = false := by simp; omega
        simp only [lookupO, List.find?, hne] at ih ⊢
        exact ih hfs

theorem lookupO_pushOwner_ne {p q : Nat} {tag : String} {m : List (Nat × List String)}
    (hq : q ≠ p) : lookupO (pushOwner p tag m) q = lookupO m q := by
  induction m with
  | nil =>
    have : (p == q) = false := by simp; omega
    simp [pushOwner, lookupO, List.find?, this]
  | cons f fs ih =>
    by_cases h1 : p < f.1
    · rw [pushOwner, if_pos h1]
      have : (p == q) = false := by simp; omega
      simp [lookupO, List.find?, this]
    · by_cases h2 : p = f.1
      · rw [pushOwner, if_neg h1, if_pos h2]
        have hne : (f.1 == q) = false := by simp; omega
        simp [lookupO, List.find?, hne]
      · rw [pushOwner, if_neg h1, if_neg h2]
        by_cases h3 : f.1 = q
        · simp [lookupO, List.find?, h3]
        · have hne : (f.1 == q) = false := by simp [h3]
          simp only [lookupO, List.find?, hne] at ih ⊢
          exact ih

theorem foldPush_props (g : String) {provs : List Nat} {m : List (Nat × List String)}
    (hnd : provs.Nodup) (hs : m.Pairwise (fun a b => a.1 < b.1))
    (hv : ∀ e ∈ m, e.2 ≠ []) :
    (provs.foldl (fun m2 p => pushOwner p g m2) m).Pairwise (fun a b => a.1 < b.1) ∧
    (∀ e ∈ provs.foldl (fun m2 p => pushOwner p g m2) m, e.2 ≠ []) ∧
    ∀ q, lookupO (provs.foldl (fun m2 p => pushOwner p g m2) m) q =
      lookupO m q ++ (if q ∈ provs then [g] else []) := by
  induction provs generalizing m with
  | nil =>
    refine ⟨hs, hv, ?_⟩
    intro q
    simp
  | cons p ps ih =>
    rcases List.nodup_cons.mp hnd with ⟨hp, hps⟩
    have hs' : (pushOwner p g m).Pairwise (fun a b => a.1 < b.1) := pushOwner_pairwise hs
    have hv' : ∀ e ∈ pushOwner p g m, e.2 ≠ [] := pushOwner_vals hv
    rcases ih hps hs' hv' with ⟨ihs, ihv, ihl⟩
    refine ⟨by simpa [List.foldl_cons] using ihs, by simpa [List.foldl_cons] using ihv, ?_⟩
    intro q
    rw [List.foldl_cons]
    rw [ihl q]
    by_cases hq : q = p
    · subst hq
      rw [lookupO_pushOwner_self hs]
      simp [hp]
    · rw [lookupO_pushOwner_ne hq]
      simp [hq, List.mem_cons]

theorem provinceTitlesMap_props (titles : TitleMap) (indeps : List String)
    (hprov : ∀ g ∈ indeps, (provsOf titles g).Nodup) :
    (provinceTitlesMapOf titles indeps).Pairwise (fun a b => a.1 < b.1) ∧
    (∀ e ∈ provinceTitlesMapOf titles indeps, e.2 ≠ []) ∧
    ∀ q, lookupO (provinceTitlesMapOf titles indeps) q =
      indeps.filter (fun g => q ∈ provsOf titles g) := by
  suffices h : ∀ (gs : List String) (m : List (Nat × List String)),
      (∀ g ∈ gs, (provsOf titles g).Nodup) →
      m.Pairwise (fun a b => a.1 < b.1) → (∀ e ∈ m, e.2 ≠ []) →
      (gs.foldl (fun m2 g => (provsOf titles g).foldl (fun m3 p => pushOwner p g m3) m2)
        m).Pairwise (fun a b => a.1 < b.1) ∧
      (∀ e ∈ gs.foldl (fun m2 g => (provsOf titles g).foldl (fun m3 p => pushOwner p g m3) m2) m,
        e.2 ≠ []) ∧
      ∀ q, lookupO
          (gs.foldl (fun m2 g => (provsOf titles g).foldl (fun m3 p => pushOwner p g m3) m2) m)
          q = lookupO m q ++ gs.filter (fun g => q ∈ provsOf titles g) by
    have hh := h indeps [] hprov (by simp) (by simp)
    unfold provinceTitlesMapOf
    refine ⟨hh.1, hh.2.1, ?_⟩
    intro q
    rw [hh.2.2 q]
    simp [lookupO]
  intro gs
  induction gs with
  | nil => intro m _ hs hv; exact ⟨hs, hv, by simp⟩
  | cons g gs ih =>
    intro m hnd hs hv
    rcases foldPush_props g (hnd g (List.mem_cons_self g gs)) hs hv with ⟨hs', hv', hl'⟩
    rcases ih _ (fun x hx => hnd x (List.mem_cons_of_mem g hx)) hs' hv' with ⟨ihs, ihv, ihl⟩
    refine ⟨ihs, ihv, ?_⟩
    intro q
    simp only [List.foldl_cons]
    rw [ihl q, hl' q]
    by_cases hq : q ∈ provsOf titles g
    · simp [hq]
    · simp [hq]

theorem lookupO_of_mem {m : List (Nat × List String)} {e : Nat × List String}
    (hs : m.Pairwise (fun a b => a.1 < b.1)) (he : e ∈ m) : lookupO m e.1 = e.2 := by
  induction m with
  | nil => simp at he
  | cons f fs ih =>
    rcases List.pairwise_cons.mp hs with ⟨hf, hfs⟩
    rcases List.mem_cons.mp he with rfl | he
    · simp [lookupO, List.find?]
    · have hne : (f.1 == e.1) = false := by
        have := hf e he
        simp
        omega
      simp only [lookupO, List.find?, hne]
      exact ih hfs he

theorem exists_of_lookupO_ne_nil {m : List (Nat × List String)} {q : Nat}
    (h : lookupO m q ≠ []) : ∃ e ∈ m, e.1 = q ∧ e.2 = lookupO m q := by
  unfold lookupO at h ⊢
  cases hf : m.find? (fun e => e.1 == q) with
  | none =>
    rw [hf] at h
    simp at h
  | some e =>
    refine ⟨e, List.mem_of_find?_eq_some hf, by simpa using List.find?_some hf, by simp⟩

/-- C5.  The sanity check never modifies the state (it returns it untouched);
every warning names a province together with ALL of its claimants and reports
only provinces with at least two; and it emits at least one warning exactly
when some province id lies in more than one independent title's province
set. -/
theorem sanity_check_characterization (titles : TitleMap) (indeps : List String)
    (hprov : ∀ g ∈ indeps, (provsOf titles g).Nodup) :
    (sanityCheckifyProvinces titles indeps).1 = (titles, indeps) ∧
    (∀ e ∈ (sanityCheckifyProvinces titles indeps).2,
        e.2 = indeps.filter (fun g => e.1 ∈ provsOf titles g) ∧ 2 ≤ e.2.length) ∧
    ((sanityCheckifyProvinces titles indeps).2 ≠ [] ↔
      ∃ p : Nat, 2 ≤ (indeps.filter (fun g => p ∈ provsOf titles g)).length) := by
  rcases provinceTitlesMap_props titles indeps hprov with ⟨hs, _hv, hl⟩
  refine ⟨rfl, ?_, ?_⟩
  · intro e he
    have hmem : e ∈ provinceTitlesMapOf titles indeps := (List.mem_filter.mp he).1
    have hlen : 1 < e.2.length := by
      have := (List.mem_filter.mp he).2
      simpa using this
    have := lookupO_of_mem hs hmem
    rw [← hl e.1, this]
    exact ⟨rfl, hlen⟩
  · constructor
    · intro hne
      rcases List.exists_mem_of_ne_nil _ hne with ⟨e, he⟩
      have hmem : e ∈ provinceTitlesMapOf titles indeps := (List.mem_filter.mp he).1
      have hlen : 1 < e.2.length := by
        have := (List.mem_filter.mp he).2
        simpa using this
      refine ⟨e.1, ?_⟩
      rw [← hl e.1, lookupO_of_mem hs hmem]
      omega
    · intro ⟨p, hp⟩
      have hpn : lookupO (provinceTitlesMapOf titles indeps) p ≠ [] := by
        rw [hl p]
        intro hnil
        rw [hnil] at hp
        simp at hp
      rcases exists_of_lookupO_ne_nil hpn with ⟨e, hem, hek, hev⟩
      have hlen : 1 < e.2.length := by
        rw [hev, hl p]
        omega
      have : e ∈ (sanityCheckifyProvinces titles indeps).2 := by
        apply List.mem_filter.mpr
        exact ⟨hem, by simpa using hlen⟩
      exact List.ne_nil_of_mem this

/-- C5 witness: two counties both claiming province 5 produce a warning. -/
theorem sanity_check_characterization_witness :
    (sanityCheckifyProvinces overlapTitles ["c_a", "c_b"]).2 ≠ [] := by
  have h := sanity_check_characterization overlapTitles ["c_a", "c_b"] (by decide)
  exact h.2.2.mpr ⟨5, by decide⟩

/-! ## Claim C2: HRE shattering, full characterization -/

theorem mem_foldl_keyInsert {x : String} (L : List String) (init : List String) :
    x ∈ L.foldl (fun acc v => keyInsert v acc) init ↔ x ∈ init ∨ x ∈ L := by
  induction L generalizing init with
  | nil => simp
  | cons a as ih =>
    rw [List.foldl_cons, ih, mem_keyInsert]
    simp only [List.mem_cons]
    tauto

theorem foldl_keyInsert_pairwise (L : List String) : ∀ init : List String,
    init.Pairwise (fun a b => strLt a b = true) →
    (L.foldl (fun ms vv => keyInsert vv ms) init).Pairwise (fun a b => strLt a b = true) := by
  induction L with
  | nil => intro init h; exact h
  | cons a as ih =>
    intro init h
    rw [List.foldl_cons]
    exact ih _ (keyInsert_pairwise h)

theorem mem_spec_append_single {m0 : TitleMap} {done : List String} {v x : String} :
    x ∈ hreMemberSpec m0 (done ++ [v]) ↔ x ∈ hreMemberSpec m0 done ∨ x ∈ hreBranch m0 v := by
  unfold hreMemberSpec
  rw [List.flatMap_append, List.mem_append]
  simp

theorem mem_bricked_append_single {done : List String} {v n : String} :
    n ∈ brickedSpec (done ++ [v]) ↔
      n ∈ brickedSpec done ∨ (n = v ∧ brickedCond v = true) := by
  unfold brickedSpec
  rw [List.filter_append, List.mem_append]
  constructor
  · rintro (h | h)
    · exact Or.inl h
    · rcases List.mem_filter.mp h with ⟨h1, h2⟩
      have hnv : n = v := by simpa using h1
      subst hnv
      exact Or.inr ⟨rfl, h2⟩
  · rintro (h | ⟨rfl, h⟩)
    · exact Or.inl h
    · exact Or.inr (List.mem_filter.mpr ⟨by simp, h⟩)

theorem bricked_subset {vtags : List String} {n : String} (h : n ∈ brickedSpec vtags) :
    n ∈ vtags :=
  List.mem_of_mem_filter h

theorem collectHRE_go (m0 : TitleMap) (vtags : List String) :
    ∀ (done memAcc : List String) (tsAcc : TitleMap),
    vtags.Nodup →
    (∀ v ∈ vtags, v ∉ done) →
    (∀ x, x ∈ memAcc ↔ x ∈ hreMemberSpec m0 done) →
    memAcc.Pairwise (fun a b => strLt a b = true) →
    (∀ n, lookupT tsAcc n =
      if n ∈ brickedSpec done then (lookupT m0 n).map brick else lookupT m0 n) →
    (∀ x, x ∈ (vtags.foldl collectHREStep (memAcc, tsAcc)).1 ↔
        x ∈ hreMemberSpec m0 (done ++ vtags)) ∧
    ((vtags.foldl collectHREStep (memAcc, tsAcc)).1.Pairwise (fun a b => strLt a b = true)) ∧
    (∀ n, lookupT (vtags.foldl collectHREStep (memAcc, tsAcc)).2 n =
      if n ∈ brickedSpec (done ++ vtags) then (lookupT m0 n).map brick else lookupT m0 n) := by
  induction vtags with
  | nil =>
    intro done memAcc tsAcc _ _ hmem hpw hts
    rw [List.append_nil]
    exact ⟨hmem, hpw, hts⟩
  | cons v rest ih =>
    intro done memAcc tsAcc hnd hdj hmem hpw hts
    obtain ⟨hvrest, hndrest⟩ := List.nodup_cons.mp hnd
    have hvdone : v ∉ done := hdj v (List.mem_cons_self v rest)
    have hdj' : ∀ w ∈ rest, w ∉ done ++ [v] := by
      intro w hw
      rw [List.mem_append, List.mem_singleton]
      rintro (h | rfl)
      · exact hdj w (List.mem_cons_of_mem v hw) h
      · exact hvrest hw
    have happ : done ++ v :: rest = (done ++ [v]) ++ rest := by simp
    rw [happ, List.foldl_cons]
    have hnotbricked : v ∉ brickedSpec done := fun h => hvdone (bricked_subset h)
    have htsv : lookupT tsAcc v = lookupT m0 v := by
      rw [hts v, if_neg hnotbricked]
    by_cases hdc : (hasPfx "d_" v || hasPfx "c_" v) = true
    · have hstep : collectHREStep (memAcc, tsAcc) v = (keyInsert v memAcc, tsAcc) := by
        unfold collectHREStep
        rw [if_pos hdc]
      have hb : hreBranch m0 v = [v] := by
        unfold hreBranch
        rw [if_pos hdc]
      have hbc : brickedCond v = false := by
        unfold brickedCond
        rw [hdc]
        rfl
      rw [hstep]
      apply ih (done ++ [v]) (keyInsert v memAcc) tsAcc hndrest hdj'
      · intro x
        rw [mem_keyInsert, hmem x, mem_spec_append_single, hb, List.mem_singleton]
        tauto
      · exact keyInsert_pairwise hpw
      · intro n
        have hiff : (n ∈ brickedSpec (done ++ [v])) ↔ n ∈ brickedSpec done := by
          rw [mem_bricked_append_single]
          simp [hbc]
        rw [hts n]
        simp only [hiff]
    · by_cases hk : hasPfx "k_" v = true
      · by_cases hsp : v = "k_papal_state" ∨ v = "k_orthodox"
        · have hstep : collectHREStep (memAcc, tsAcc) v = (keyInsert v memAcc, tsAcc) := by
            unfold collectHREStep
            rw [if_neg hdc, if_pos hk, if_pos hsp]
          have hb : hreBranch m0 v = [v] := by
            unfold hreBranch
            rw [if_neg hdc, if_pos hk, if_pos hsp]
          have hbc : brickedCond v = false := by
            unfold brickedCond
            rcases hsp with rfl | rfl <;> rfl
          rw [hstep]
          apply ih (done ++ [v]) (keyInsert v memAcc) tsAcc hndrest hdj'
          · intro x
            rw [mem_keyInsert, hmem x, mem_spec_append_single, hb, List.mem_singleton]
            tauto
          · exact keyInsert_pairwise hpw
          · intro n
            have hiff : (n ∈ brickedSpec (done ++ [v])) ↔ n ∈ brickedSpec done := by
              rw [mem_bricked_append_single]
              simp [hbc]
            rw [hts n]
            simp only [hiff]
        · have hbc : brickedCond v = true := by
            unfold brickedCond
            have hdcf : (hasPfx "d_" v || hasPfx "c_" v) = false := Bool.eq_false_iff.mpr hdc
            rw [hdcf, hk]
            have h1 : (v == "k_papal_state") = false := by
              simp only [beq_eq_false_iff_ne, ne_eq]
              intro h
              exact hsp (Or.inl h)
            have h2 : (v == "k_orthodox") = false := by
              simp only [beq_eq_false_iff_ne, ne_eq]
              intro h
              exact hsp (Or.inr h)
            rw [h1, h2]
            rfl
          cases hlv : lookupT m0 v with
          | some vt =>
            have htsv2 : lookupT tsAcc v = some vt := htsv.trans hlv
            have hstep : collectHREStep (memAcc, tsAcc) v =
                (vt.vassals.foldl (fun ms vv => keyInsert vv ms) memAcc,
                  updateT tsAcc v brick) := by
              unfold collectHREStep
              rw [if_neg hdc, if_pos hk, if_neg hsp]
              simp only [htsv2]
            have hb : hreBranch m0 v = vt.vassals := by
              unfold hreBranch
              rw [if_neg hdc, if_pos hk, if_neg hsp, hlv]
              rfl
            rw [hstep]
            apply ih (done ++ [v]) _ _ hndrest hdj'
            · intro x
              rw [mem_foldl_keyInsert, hmem x, mem_spec_append_single, hb]
            · exact foldl_keyInsert_pairwise vt.vassals memAcc hpw
            · intro n
              rw [lookupT_updateT]
              by_cases hn : n = v
              · subst hn
                rw [if_pos rfl, htsv2, hlv]
                have hmem2 : n ∈ brickedSpec (done ++ [n]) :=
                  mem_bricked_append_single.mpr (Or.inr ⟨rfl, hbc⟩)
                rw [if_pos hmem2]
              · rw [if_neg hn, hts n]
                have hiff : (n ∈ brickedSpec (done ++ [v])) ↔ n ∈ brickedSpec done := by
                  rw [mem_bricked_append_single]
                  simp [hn]
                simp only [hiff]
          | none =>
            have htsv2 : lookupT tsAcc v = none := htsv.trans hlv
            have hstep : collectHREStep (memAcc, tsAcc) v = (memAcc, tsAcc) := by
              unfold collectHREStep
              rw [if_neg hdc, if_pos hk, if_neg hsp]
              simp only [htsv2]
            have hb : hreBranch m0 v = [] := by
              unfold hreBranch
              rw [if_neg hdc, if_pos hk, if_neg hsp, hlv]
              rfl
            rw [hstep]
            apply ih (done ++ [v]) _ _ hndrest hdj'
            · intro x
              rw [hmem x, mem_spec_append_single, hb]
              simp
            · exact hpw
            · intro n
              rw [hts n]
              by_cases hn : n = v
              · subst hn
                have hmem2 : n ∈ brickedSpec (done ++ [n]) :=
                  mem_bricked_append_single.mpr (Or.inr ⟨rfl, hbc⟩)
                rw [if_neg hnotbricked, if_pos hmem2, hlv]
                rfl
              · have hiff : (n ∈ brickedSpec (done ++ [v])) ↔ n ∈ brickedSpec done := by
                  rw [mem_bricked_append_single]
                  simp [hn]
                simp only [hiff]
      · have hstep : collectHREStep (memAcc, tsAcc) v = (memAcc, tsAcc) := by
          unfold collectHREStep
          rw [if_neg hdc, if_neg hk]
        have hb : hreBranch m0 v = [] := by
          unfold hreBranch
          rw [if_neg hdc, if_neg hk]
        have hbc : brickedCond v = false := by
          unfold brickedCond
          have hkf : hasPfx "k_" v = false := Bool.eq_false_iff.mpr hk
          rw [hkf]
          simp
        rw [hstep]
        apply ih (done ++ [v]) _ _ hndrest hdj'
        · intro x
          rw [hmem x, mem_spec_append_single, hb]
          simp
        · exact hpw
        · intro n
          have hiff : (n ∈ brickedSpec (done ++ [v])) ↔ n ∈ brickedSpec done := by
            rw [mem_bricked_append_single]
            simp [hbc]
          rw [hts n]
          simp only [hiff]

/-- Boolean masking used by the `emperorSet` threading: once the flag is set,
the `!emperorSet && matches` conjunct can never fire again. -/
theorem bool_or_masked (a b : Bool) : (a || (!a && b)) = (a || b) := by
  cases a <;> cases b <;> rfl

/-- `List.find?` only depends on the predicate's values on the list. -/
theorem find?_congrOn {α : Type} {p q : α → Bool} :
    ∀ {l : List α}, (∀ x ∈ l, p x = q x) → l.find? p = l.find? q := by
  intro l
  induction l with
  | nil => intro _; rfl
  | cons a as ih =>
    intro hpq
    have ha : p a = q a := hpq a (List.mem_cons_self a as)
    cases hq : q a with
    | true => rw [List.find?_cons_of_pos _ (ha.trans hq), List.find?_cons_of_pos _ hq]
    | false =>
      have hpa : ¬p a = true := by rw [ha, hq]; exact Bool.false_ne_true
      have hqa : ¬q a = true := by rw [hq]; exact Bool.false_ne_true
      rw [List.find?_cons_of_neg _ hpa, List.find?_cons_of_neg _ hqa]
      exact ih (fun x hx => hpq x (List.mem_cons_of_mem a hx))

/-- Characterization of the second loop of `shatterHRE`: walking the member
list with the `emperorSet` flag threaded through acts pointwise on the table
as `flagXform` — every member still resolving is flagged in-HRE and freed of
its liege, and the first member (in member order) whose holder matches the
empire's gains the emperor flag. -/
theorem flagHRE_go (ts1 : TitleMap) (h : Nat) (L : List String) (hnd : L.Nodup) :
    ∀ (ms pre : List String) (ts : TitleMap),
    L = pre ++ ms →
    (∀ n, lookupT ts n =
      if n ∈ pre then (lookupT ts1 n).map (flagXform ts1 h L n) else lookupT ts1 n) →
    ∀ n, lookupT ((ms.foldl (flagHREStep h) (ts, pre.any (holderMatches ts1 h))).1) n =
      if n ∈ L then (lookupT ts1 n).map (flagXform ts1 h L n) else lookupT ts1 n := by
  intro ms
  induction ms with
  | nil =>
    intro pre ts hL hts n
    have hpre : pre = L := by rw [hL, List.append_nil]
    rw [List.foldl_nil]
    rw [hpre] at hts
    exact hts n
  | cons m rest ih =>
    intro pre ts hL hts n
    have hnd2 : (pre ++ m :: rest).Nodup := hL ▸ hnd
    obtain ⟨hmnot, _⟩ := List.nodup_cons.mp (List.nodup_middle.mp hnd2)
    rw [List.mem_append] at hmnot
    push_neg at hmnot
    obtain ⟨hmpre, hmrest⟩ := hmnot
    have htsm : lookupT ts m = lookupT ts1 m := by rw [hts m, if_neg hmpre]
    have hL2 : L = (pre ++ [m]) ++ rest := by rw [hL, List.append_assoc]; rfl
    rw [List.foldl_cons]
    cases hm1 : lookupT ts1 m with
    | none =>
      have hstep : flagHREStep h (ts, pre.any (holderMatches ts1 h)) m =
          (ts, pre.any (holderMatches ts1 h)) := by
        unfold flagHREStep
        simp only [htsm.trans hm1]
      have hmmf : holderMatches ts1 h m = false := by
        unfold holderMatches
        rw [hm1]
      have hany : (pre ++ [m]).any (holderMatches ts1 h) =
          pre.any (holderMatches ts1 h) := by
        rw [List.any_append]
        simp [hmmf]
      have hts2 : ∀ n2, lookupT ts n2 =
          if n2 ∈ pre ++ [m] then (lookupT ts1 n2).map (flagXform ts1 h L n2)
          else lookupT ts1 n2 := by
        intro n2
        by_cases hn2 : n2 = m
        · subst hn2
          simp [htsm, hm1]
        · rw [hts n2]
          have hiff : (n2 ∈ pre ++ [m]) ↔ n2 ∈ pre := by simp [hn2]
          simp only [hiff]
      rw [hstep, ← hany]
      exact ih (pre ++ [m]) ts hL2 hts2 n
    | some mt =>
      have htsm2 : lookupT ts m = some mt := htsm.trans hm1
      have hmme : holderMatches ts1 h m = (mt.holder == h) := by
        unfold holderMatches
        rw [hm1]
      have hstep : flagHREStep h (ts, pre.any (holderMatches ts1 h)) m =
          (updateT ts m (fun t =>
            { (if !(pre.any (holderMatches ts1 h)) && (mt.holder == h) then
                { t with hreEmperor := true } else t) with inHRE := true, liege := "" }),
           pre.any (holderMatches ts1 h) ||
             (!(pre.any (holderMatches ts1 h)) && (mt.holder == h))) := by
        unfold flagHREStep
        simp only [htsm2]
      have hany : (pre ++ [m]).any (holderMatches ts1 h) =
          (pre.any (holderMatches ts1 h) ||
            (!(pre.any (holderMatches ts1 h)) && (mt.holder == h))) := by
        rw [List.any_append, bool_or_masked]
        simp [hmme]
      have hsetIff : ((!(pre.any (holderMatches ts1 h)) && (mt.holder == h)) = true) ↔
          L.find? (holderMatches ts1 h) = some m := by
        constructor
        · intro hx
          rw [Bool.and_eq_true, Bool.not_eq_true'] at hx
          obtain ⟨hpa, hbm⟩ := hx
          have hfn : pre.find? (holderMatches ts1 h) = none :=
            List.find?_eq_none.mpr (List.any_eq_false.mp hpa)
          rw [hL, List.find?_append, hfn, Option.none_or,
            List.find?_cons_of_pos _ (hmme.trans hbm)]
        · intro hf
          cases hpa : pre.any (holderMatches ts1 h) with
          | true =>
            obtain ⟨x, hx, hxm⟩ := List.any_eq_true.mp hpa
            have hfs : (pre.find? (holderMatches ts1 h)).isSome :=
              List.find?_isSome.mpr ⟨x, hx, hxm⟩
            obtain ⟨y, hy⟩ := Option.isSome_iff_exists.mp hfs
            have hyp : y ∈ pre := List.mem_of_find?_eq_some hy
            rw [hL, List.find?_append, hy, Option.or_some] at hf
            exact absurd (Option.some.inj hf ▸ hyp) hmpre
          | false =>
            have hfn : pre.find? (holderMatches ts1 h) = none :=
              List.find?_eq_none.mpr (List.any_eq_false.mp hpa)
            rw [hL, List.find?_append, hfn, Option.none_or] at hf
            cases hb : holderMatches ts1 h m with
            | true =>
              rw [hmme.symm.trans hb]
              rfl
            | false =>
              rw [List.find?_cons_of_neg _ (by rw [hb]; exact Bool.false_ne_true)] at hf
              exact absurd (List.mem_of_find?_eq_some hf) hmrest
      have hts2 : ∀ n2,
          lookupT (updateT ts m (fun t =>
            { (if !(pre.any (holderMatches ts1 h)) && (mt.holder == h) then
                { t with hreEmperor := true } else t)
                with inHRE := true, liege := "" })) n2 =
          if n2 ∈ pre ++ [m] then (lookupT ts1 n2).map (flagXform ts1 h L n2)
          else lookupT ts1 n2 := by
        intro n2
        rw [lookupT_updateT]
        by_cases hn2 : n2 = m
        · subst hn2
          rw [if_pos rfl, if_pos (show n2 ∈ pre ++ [n2] by simp), htsm2, hm1]
          simp only [Option.map_some']
          simp only [flagXform]
          by_cases hc : L.find? (holderMatches ts1 h) = some n2
          · rw [if_pos (hsetIff.mpr hc), if_pos hc]
          · rw [if_neg (fun hx => hc (hsetIff.mp hx)), if_neg hc]
        · rw [if_neg hn2, hts n2]
          have hiff : (n2 ∈ pre ++ [m]) ↔ n2 ∈ pre := by simp [hn2]
          simp only [hiff]
      rw [hstep, ← hany]
      exact ih (pre ++ [m]) _ hL2 hts2 n

/-- C2.  HRE shattering with the mode enabled, the designated empire present
and endowed with (pairwise distinct) vassals, in a world where the member set
is disjoint from the bricked kingdoms, the empire tag is neither a member nor
bricked, and no title starts with the emperor flag: the collected member list
is exactly the duchy/county vassals, the protected `k_papal_state` and
`k_orthodox` kingdoms, and the direct vassals of every other kingdom-tier
vassal; pointwise, the final table strips the empire of vassals and holder,
maps every member through `flagXform` (in-HRE flag set, liege cleared,
emperor flag for the first member — in member-map order — whose holder equals
the empire's), bricks exactly the non-protected kingdom-tier vassals, and
leaves every other title untouched; and a member's final emperor flag is set
iff it is that first holder-matching member. -/
theorem shatterHRE_characterization (cfg : Configuration) (titles : TitleMap)
    (hre : Title)
    (hg1 : cfg.hre ≠ IAmHRE.NONE)
    (hg2 : lookupT titles (hreTag cfg) = some hre)
    (hg3 : hre.vassals ≠ [])
    (hnd : hre.vassals.Nodup)
    (hdisj : ∀ m ∈ hreMemberSpec titles hre.vassals, m ∉ brickedSpec hre.vassals)
    (htagm : hreTag cfg ∉ hreMemberSpec titles hre.vassals)
    (htagb : hreTag cfg ∉ brickedSpec hre.vassals)
    (hflags : ∀ e ∈ titles, e.2.hreEmperor = false) :
    (∀ x, x ∈ (collectHREMembers titles hre.vassals).1 ↔
        x ∈ hreMemberSpec titles hre.vassals) ∧
    (∀ n, lookupT (shatterHRE cfg titles).1 n =
      if n = hreTag cfg then some { hre with vassals := [], holder := 0 }
      else if n ∈ (collectHREMembers titles hre.vassals).1 then
        (lookupT titles n).map
          (flagXform titles hre.holder (collectHREMembers titles hre.vassals).1 n)
      else if n ∈ brickedSpec hre.vassals then (lookupT titles n).map brick
      else lookupT titles n) ∧
    (∀ m t, m ∈ (collectHREMembers titles hre.vassals).1 →
      lookupT (shatterHRE cfg titles).1 m = some t →
      (t.hreEmperor = true ↔
        (collectHREMembers titles hre.vassals).1.find?
          (holderMatches titles hre.holder) = some m)) := by
  obtain ⟨hA0, hPW, hTs0⟩ := collectHRE_go titles hre.vassals [] [] titles hnd
    (fun v _ => List.not_mem_nil v)
    (by intro x; simp [hreMemberSpec])
    List.Pairwise.nil
    (by intro n; simp [brickedSpec])
  simp only [List.nil_append] at hA0 hTs0
  have hA : ∀ x, x ∈ (collectHREMembers titles hre.vassals).1 ↔
      x ∈ hreMemberSpec titles hre.vassals := hA0
  have hTs : ∀ n, lookupT (collectHREMembers titles hre.vassals).2 n =
      if n ∈ brickedSpec hre.vassals then (lookupT titles n).map brick
      else lookupT titles n := hTs0
  have hPW2 : (collectHREMembers titles hre.vassals).1.Pairwise
      (fun a b => strLt a b = true) := hPW
  have hLnd : (collectHREMembers titles hre.vassals).1.Nodup := pairwise_strLt_nodup hPW2
  have hmatch : ∀ x ∈ (collectHREMembers titles hre.vassals).1,
      holderMatches (collectHREMembers titles hre.vassals).2 hre.holder x =
      holderMatches titles hre.holder x := by
    intro x hx
    unfold holderMatches
    rw [hTs x, if_neg (hdisj x ((hA x).mp hx))]
  have hfind : (collectHREMembers titles hre.vassals).1.find?
      (holderMatches (collectHREMembers titles hre.vassals).2 hre.holder) =
      (collectHREMembers titles hre.vassals).1.find? (holderMatches titles hre.holder) :=
    find?_congrOn hmatch
  have hxf : ∀ n, flagXform (collectHREMembers titles hre.vassals).2 hre.holder
      (collectHREMembers titles hre.vassals).1 n =
      flagXform titles hre.holder (collectHREMembers titles hre.vassals).1 n := by
    intro n
    funext t
    simp only [flagXform]
    rw [hfind]
  have hts2 : ∀ n, lookupT (flagHREMembers hre.holder
      (collectHREMembers titles hre.vassals).1 (collectHREMembers titles hre.vassals).2) n =
      if n ∈ (collectHREMembers titles hre.vassals).1 then
        (lookupT (collectHREMembers titles hre.vassals).2 n).map
          (flagXform (collectHREMembers titles hre.vassals).2 hre.holder
            (collectHREMembers titles hre.vassals).1 n)
      else lookupT (collectHREMembers titles hre.vassals).2 n := by
    intro n
    exact flagHRE_go (collectHREMembers titles hre.vassals).2 hre.holder
      (collectHREMembers titles hre.vassals).1 hLnd
      (collectHREMembers titles hre.vassals).1 [] (collectHREMembers titles hre.vassals).2
      rfl (fun n2 => by rw [if_neg (List.not_mem_nil n2)]) n
  have hrun : (shatterHRE cfg titles).1 =
      updateT (flagHREMembers hre.holder (collectHREMembers titles hre.vassals).1
        (collectHREMembers titles hre.vassals).2) (hreTag cfg)
        (fun t => { t with vassals := [], holder := 0 }) := by
    unfold shatterHRE
    rw [if_neg hg1]
    simp only [hg2]
    rw [if_neg hg3]
  have hB : ∀ n, lookupT (shatterHRE cfg titles).1 n =
      if n = hreTag cfg then some { hre with vassals := [], holder := 0 }
      else if n ∈ (collectHREMembers titles hre.vassals).1 then
        (lookupT titles n).map
          (flagXform titles hre.holder (collectHREMembers titles hre.vassals).1 n)
      else if n ∈ brickedSpec hre.vassals then (lookupT titles n).map brick
      else lookupT titles n := by
    intro n
    rw [hrun, lookupT_updateT]
    by_cases hn : n = hreTag cfg
    · rw [if_pos hn, if_pos hn,
        hts2 (hreTag cfg), if_neg (fun hmem => htagm ((hA _).mp hmem)),
        hTs (hreTag cfg), if_neg htagb, hg2]
      rfl
    · rw [if_neg hn, if_neg hn, hts2 n]
      by_cases hm : n ∈ (collectHREMembers titles hre.vassals).1
      · rw [if_pos hm, if_pos hm, hTs n,
          if_neg (fun hb => hdisj n ((hA n).mp hm) hb), hxf n]
      · rw [if_neg hm, if_neg hm, hTs n]
  refine ⟨hA, hB, ?_⟩
  intro m t hm hlook
  rw [hB m] at hlook
  have hmtag : m ≠ hreTag cfg := fun he => htagm (he ▸ (hA m).mp hm)
  rw [if_neg hmtag, if_pos hm] at hlook
  cases h0 : lookupT titles m with
  | none =>
    rw [h0] at hlook
    simp at hlook
  | some t0 =>
    rw [h0, Option.map_some'] at hlook
    have h0f : t0.hreEmperor = false := hflags (m, t0) (lookupT_mem h0)
    have ht := (Option.some.inj hlook).symm
    subst ht
    by_cases hc : (collectHREMembers titles hre.vassals).1.find?
        (holderMatches titles hre.holder) = some m
    · simp [flagXform, hc]
    · simp [flagXform, hc, h0f]

/-- Witness for C2 on the concrete HRE world: the empire e_hre has a duchy
vassal d_a, a non-protected kingdom k_bad (bricked, contributing its duchies
d_b and d_c as members) and the protected k_papal_state; after shattering
k_bad is bricked, the empire keeps its entry with vassals and holder cleared,
and d_a (whose holder 5 equals the empire's) carries the emperor flag. -/
theorem shatterHRE_characterization_witness :
    lookupT (shatterHRE hreCfg hreTitles).1 "k_bad" = some (brick hreKingdomBad) ∧
    lookupT (shatterHRE hreCfg hreTitles).1 "e_hre" =
      some { hreEmpire with vassals := [], holder := 0 } ∧
    (∀ t, lookupT (shatterHRE hreCfg hreTitles).1 "d_a" = some t →
      t.hreEmperor = true) := by
  have hc := shatterHRE_characterization hreCfg hreTitles hreEmpire (by decide) (by decide)
    (by decide) (by decide) (by decide) (by decide) (by decide) (by decide)
  refine ⟨?_, ?_, ?_⟩
  · rw [hc.2.1 "k_bad", if_neg (by decide), if_neg (by decide), if_pos (by decide)]
    decide
  · rw [hc.2.1 "e_hre", if_pos (by decide)]
  · intro t ht
    exact (hc.2.2 "d_a" t (by decide) ht).mpr (by decide)

/-! ## Claim C3: the vassal-liberation threshold boundary -/

theorem liberates_eq_some {titles : TitleMap} {t : Title} {pfx : String} {th : ℚ}
    {w g : String} (h : liberates titles t pfx th w = some g) : w = g := by
  unfold liberates at h
  split at h
  · cases h
  · split at h
    · cases h
    · split at h
      · cases h
      · split at h
        · exact Option.some.inj h
        · cases h

theorem liberates_resolved {titles : TitleMap} {t : Title} {pfx : String} {th : ℚ}
    {v : String} {vt : Title} (hvp : hasPfx pfx v = true)
    (hvt : lookupT titles v = some vt) (hhold : vt.holder ≠ t.holder) :
    liberates titles t pfx th v =
      (if ((coalesceProvinces titles titles.length vt).length : ℚ) > th then some v
       else none) := by
  unfold liberates
  rw [if_neg (not_not_intro hvp), hvt]
  show (if vt.holder = t.holder then none
    else if ((coalesceProvinces titles titles.length vt).length : ℚ) > th then some v
    else none) = _
  rw [if_neg hhold]

theorem splitCandidatesOf_eq_filterMap {chars : List (Nat × Character)} {titles : TitleMap}
    {tag : String} {t : Title} {pfx : String} {N : Nat}
    (hprot : ¬(tag = "k_papal_state" ∨ tag = "e_outremer" ∨ tag = "e_china_west_governor"))
    (hgov : ¬(holderGov chars t = "tribal_government" ∨
      holderGov chars t = "nomadic_government"))
    (hpfx : relevantVassalPfx tag = some pfx)
    (hN : t.vassals.countP
        (fun w => hasPfx pfx w && !(vassalCoalesce titles titles.length w).isEmpty) = N)
    (hN0 : N ≠ 0) :
    splitCandidatesOf chars titles tag t =
      t.vassals.filterMap
        (liberates titles t pfx
          (splitThreshold (coalesceProvinces titles titles.length t).length N)) := by
  unfold splitCandidatesOf
  rw [if_neg hprot, if_neg hgov, hpfx]
  simp only [hN]
  rw [if_neg hN0]

/-- C3.  For a liege processed by vassal splitting, with N land-holding
same-tier relevant vassals and T provinces in the liege's aggregated claim, a
relevant vassal held by a different character whose province count equals
floor(T/N + 0.1*T) is NOT liberated, and one whose count is that floor plus
one IS liberated — the source liberates exactly when the count strictly
exceeds the (real-valued) threshold T/N + 0.1*T. -/
theorem liberation_threshold_boundary (chars : List (Nat × Character)) (titles : TitleMap)
    (tag : String) (t : Title) (pfx v : String) (vt : Title) (N : Nat)
    (hprot : ¬(tag = "k_papal_state" ∨ tag = "e_outremer" ∨ tag = "e_china_west_governor"))
    (hgov : ¬(holderGov chars t = "tribal_government" ∨
      holderGov chars t = "nomadic_government"))
    (hpfx : relevantVassalPfx tag = some pfx)
    (hN : t.vassals.countP
        (fun w => hasPfx pfx w && !(vassalCoalesce titles titles.length w).isEmpty) = N)
    (hN0 : N ≠ 0)
    (hv : v ∈ t.vassals) (hvp : hasPfx pfx v = true)
    (hvt : lookupT titles v = some vt) (hhold : vt.holder ≠ t.holder) :
    (((coalesceProvinces titles titles.length vt).length : ℤ) =
        ⌊splitThreshold (coalesceProvinces titles titles.length t).length N⌋ →
      v ∉ splitCandidatesOf chars titles tag t) ∧
    (((coalesceProvinces titles titles.length vt).length : ℤ) =
        ⌊splitThreshold (coalesceProvinces titles titles.length t).length N⌋ + 1 →
      v ∈ splitCandidatesOf chars titles tag t) := by
  rw [splitCandidatesOf_eq_filterMap hprot hgov hpfx hN hN0]
  constructor
  · intro hlen hmem
    rcases List.mem_filterMap.mp hmem with ⟨w, _hw, hfw⟩
    have hwv := liberates_eq_some hfw
    subst hwv
    rw [liberates_resolved hvp hvt hhold] at hfw
    by_cases h3 : ((coalesceProvinces titles titles.length vt).length : ℚ) >
        splitThreshold (coalesceProvinces titles titles.length t).length N
    · have hle : ((coalesceProvinces titles titles.length vt).length : ℚ) ≤
          splitThreshold (coalesceProvinces titles titles.length t).length N := by
        have hcast : ((coalesceProvinces titles titles.length vt).length : ℚ) =
            ((⌊splitThreshold (coalesceProvinces titles titles.length t).length N⌋ : ℤ) : ℚ) := by
          exact_mod_cast hlen
        rw [hcast]
        exact Int.floor_le _
      exact absurd h3 (not_lt.mpr hle)
    · rw [if_neg h3] at hfw
      cases hfw
  · intro hlen
    apply List.mem_filterMap.mpr
    refine ⟨v, hv, ?_⟩
    rw [liberates_resolved hvp hvt hhold, if_pos ?_]
    have hcast : ((coalesceProvinces titles titles.length vt).length : ℚ) =
        ((⌊splitThreshold (coalesceProvinces titles titles.length t).length N⌋ : ℤ) : ℚ) + 1 := by
      exact_mod_cast hlen
    rw [hcast]
    exact Int.lt_floor_add_one _

/-- C3 witness: T = 10 claimed provinces, N = 2 relevant vassals, so the
threshold is 10/2 + 0.1*10 = 6.  The 6-province vassal (floor) stays put; the
7-province vassal (floor + 1) is liberated. -/
theorem liberation_threshold_boundary_witness :
    "k_b" ∉ splitCandidatesOf [] boundaryTitlesA "e_x" boundaryEmpireA ∧
    "k_b" ∈ splitCandidatesOf [] boundaryTitlesB "e_x" boundaryEmpireA := by
  constructor
  · refine (liberation_threshold_boundary [] boundaryTitlesA "e_x" boundaryEmpireA "k_"
      "k_b" boundaryKB 2 (by decide) (by decide) (by decide) (by decide) (by decide)
      (by decide) (by decide) (by decide) (by decide)).1 ?_
    have h1 : (coalesceProvinces boundaryTitlesA boundaryTitlesA.length boundaryKB).length = 6 := by
      decide
    have h2 : (coalesceProvinces boundaryTitlesA boundaryTitlesA.length boundaryEmpireA).length
        = 10 := by decide
    rw [h1, h2]
    norm_num [splitThreshold]
  · refine (liberation_threshold_boundary [] boundaryTitlesB "e_x" boundaryEmpireA "k_"
      "k_b" boundaryKB2 2 (by decide) (by decide) (by decide) (by decide) (by decide)
      (by decide) (by decide) (by decide) (by decide)).2 ?_
    have h1 : (coalesceProvinces boundaryTitlesB boundaryTitlesB.length boundaryKB2).length = 7 := by
      decide
    have h2 : (coalesceProvinces boundaryTitlesB boundaryTitlesB.length boundaryEmpireA).length
        = 10 := by decide
    rw [h1, h2]
    norm_num [splitThreshold]

/-! ## Claim C4: the independent-title holder invariant -/

theorem lookupT_of_mem_nodup {m : TitleMap} (hnd : (m.map Prod.fst).Nodup)
    {e : String × Title} (he : e ∈ m) : lookupT m e.1 = some e.2 := by
  induction m with
  | nil => simp at he
  | cons f fs ih =>
    rcases List.mem_cons.mp he with rfl | he2
    · exact lookupT_cons_pos rfl
    · rw [List.map_cons] at hnd
      rcases List.nodup_cons.mp hnd with ⟨hf, hfs⟩
      have hne : f.1 ≠ e.1 := by
        intro hh
        exact hf (hh ▸ List.mem_map.mpr ⟨e, he2, rfl⟩)
      rw [lookupT_cons_neg hne]
      exact ih hfs he2

theorem mem_collectSplitCandidates {chars : List (Nat × Character)} {titles : TitleMap}
    {indeps : List String} {g : String} :
    g ∈ collectSplitCandidates chars titles indeps ↔
      ∃ itag ∈ indeps, ∃ it, lookupT titles itag = some it ∧
        g ∈ splitCandidatesOf chars titles itag it := by
  unfold collectSplitCandidates
  suffices h : ∀ (gs : List String) (acc : List String),
      (g ∈ gs.foldl
        (fun acc itag =>
          match lookupT titles itag with
          | some it => (splitCandidatesOf chars titles itag it).foldl
              (fun a v => keyInsert v a) acc
          | none => acc) acc ↔
      g ∈ acc ∨ ∃ itag ∈ gs, ∃ it, lookupT titles itag = some it ∧
        g ∈ splitCandidatesOf chars titles itag it) by
    rw [h indeps []]
    simp
  intro gs
  induction gs with
  | nil =>
    intro acc
    simp
  | cons itag rest ih =>
    intro acc
    cases hl : lookupT titles itag with
    | none =>
      simp only [List.foldl_cons, hl]
      rw [ih]
      constructor
      · rintro (h | ⟨it2, hmem, t2, hl2, hg2⟩)
        · exact Or.inl h
        · exact Or.inr ⟨it2, List.mem_cons_of_mem itag hmem, t2, hl2, hg2⟩
      · rintro (h | ⟨it2, hmem, t2, hl2, hg2⟩)
        · exact Or.inl h
        · rcases List.mem_cons.mp hmem with rfl | hmem2
          · rw [hl] at hl2
            cases hl2
          · exact Or.inr ⟨it2, hmem2, t2, hl2, hg2⟩
    | some it =>
      simp only [List.foldl_cons, hl]
      rw [ih, mem_foldl_keyInsert]
      constructor
      · rintro ((h | h) | ⟨it2, hmem, t2, hl2, hg2⟩)
        · exact Or.inl h
        · exact Or.inr ⟨itag, List.mem_cons_self itag rest, it, hl, h⟩
        · exact Or.inr ⟨it2, List.mem_cons_of_mem itag hmem, t2, hl2, hg2⟩
      · rintro (h | ⟨it2, hmem, t2, hl2, hg2⟩)
        · exact Or.inl (Or.inl h)
        · rcases List.mem_cons.mp hmem with rfl | hmem2
          · rw [hl] at hl2
            have heq : it = t2 := Option.some.inj hl2
            subst heq
            exact Or.inl (Or.inr hg2)
          · exact Or.inr ⟨it2, hmem2, t2, hl2, hg2⟩

theorem mem_splitCandidatesOf {chars : List (Nat × Character)} {titles : TitleMap}
    {tag : String} {t : Title} {g : String} (h : g ∈ splitCandidatesOf chars titles tag t) :
    g ∈ t.vassals ∧ ∃ pfx, relevantVassalPfx tag = some pfx := by
  unfold splitCandidatesOf at h
  split at h
  · simp at h
  · split at h
    · simp at h
    · split at h
      next => simp at h
      next pfx heq =>
        split at h
        · simp at h
        · rcases List.mem_filterMap.mp h with ⟨w, hw, hfw⟩
          have hwg := liberates_eq_some hfw
          subst hwg
          exact ⟨hw, pfx, heq⟩

theorem filterIndependent_holder {titles : TitleMap}
    (hnd : (titles.map Prod.fst).Nodup) {g : String}
    (hg : g ∈ filterIndependentTitles titles) :
    ∃ t, lookupT titles g = some t ∧ t.holder ≠ 0 := by
  unfold filterIndependentTitles at hg
  rcases List.mem_map.mp hg with ⟨e, he, rfl⟩
  have he2 := List.mem_filter.mp he
  have he3 := List.mem_filter.mp he2.1
  refine ⟨e.2, lookupT_of_mem_nodup hnd he3.1, ?_⟩
  have hc := he3.2
  simp only [decide_eq_true_eq] at hc
  exact hc.1

theorem freeVassal_holder (ts : TitleMap) (k : String) (n : String) :
    (lookupT (freeVassal ts k) n).map Title.holder = (lookupT ts n).map Title.holder := by
  unfold freeVassal
  cases hl : lookupT ts k with
  | none => rfl
  | some nt =>
    rw [lookupT_updateT]
    by_cases h1 : n = k
    · rw [if_pos h1, lookupT_updateT]
      by_cases h2 : k = nt.liege
      · rw [if_pos h2]
        cases ho : lookupT ts nt.liege with
        | none => simp [h1, h2, ho]
        | some x => simp [h1, h2, ho]
      · rw [if_neg h2]
        cases ho : lookupT ts k with
        | none => simp [h1, ho]
        | some x => simp [h1, ho]
    · rw [if_neg h1, lookupT_updateT]
      by_cases h2 : n = nt.liege
      · rw [if_pos h2]
        cases ho : lookupT ts nt.liege with
        | none => simp [h2, ho]
        | some x => simp [h2, ho]
      · rw [if_neg h2]

theorem foldl_freeVassal_holder (L : List String) : ∀ (ts : TitleMap) (n : String),
    (lookupT (L.foldl freeVassal ts) n).map Title.holder =
      (lookupT ts n).map Title.holder := by
  induction L with
  | nil => intro ts n; rfl
  | cons a as ih =>
    intro ts n
    rw [List.foldl_cons, ih, freeVassal_holder]

/-- C4 amended.  Every title placed in the independent set by the sovereignty
classifier has a non-empty holder; titles inserted by vassal splitting are
only checked to have a holder DIFFERENT from the liege's, so the invariant
holds for the final set only under the extra assumption that every vassal
(every title with a non-empty liege) has a resolvable holder. -/
theorem independent_holder_invariant (chars : List (Nat × Character)) (titles : TitleMap)
    (hnd : (titles.map Prod.fst).Nodup)
    (hliege : ∀ e ∈ titles, ∀ v ∈ e.2.vassals, (lookupT titles v).map Title.liege = some e.1)
    (hvh : ∀ e ∈ titles, e.2.liege ≠ "" → e.2.holder ≠ 0) :
    ∀ g ∈ filterProvincelessTitles
        (splitVassals chars titles (filterIndependentTitles titles)).1
        (splitVassals chars titles (filterIndependentTitles titles)).2,
      ∀ gt, lookupT (splitVassals chars titles (filterIndependentTitles titles)).1 g = some gt →
        gt.holder ≠ 0 := by
  intro g hgf gt hgt
  have hg2 : g ∈ (splitVassals chars titles (filterIndependentTitles titles)).2 :=
    List.mem_of_mem_filter hgf
  have hcases := (mem_foldl_keyInsert
    (collectSplitCandidates chars titles (filterIndependentTitles titles))
    (filterIndependentTitles titles)).mp hg2
  have hpres : (lookupT (splitVassals chars titles (filterIndependentTitles titles)).1 g).map
      Title.holder = (lookupT titles g).map Title.holder :=
    foldl_freeVassal_holder
      (collectSplitCandidates chars titles (filterIndependentTitles titles)) titles g
  rw [hgt] at hpres
  simp only [Option.map_some'] at hpres
  rcases hcases with hcase | hcase
  · obtain ⟨t0, hl0, hh0⟩ := filterIndependent_holder hnd hcase
    rw [hl0] at hpres
    simp only [Option.map_some'] at hpres
    rw [Option.some.inj hpres]
    exact hh0
  · obtain ⟨itag, _hit, it, hlit, hcand⟩ := mem_collectSplitCandidates.mp hcase
    obtain ⟨hgv, pfx, hpfx⟩ := mem_splitCandidatesOf hcand
    have hlg := hliege (itag, it) (lookupT_mem hlit) g hgv
    obtain ⟨gt0, hlg0, hlge⟩ := lookupT_map_liege_elim hlg
    have htagne : itag ≠ "" := by
      intro h0
      rw [h0] at hpfx
      rw [show relevantVassalPfx "" = none from by decide] at hpfx
      cases hpfx
    have hne0 : gt0.holder ≠ 0 :=
      hvh (g, gt0) (lookupT_mem hlg0) (by rw [hlge]; exact htagne)
    rw [hlg0] at hpres
    simp only [Option.map_some'] at hpres
    rw [Option.some.inj hpres]
    exact hne0

/-- C4 witness: in a well-formed world (every vassal has a holder) the final
independent set keeps the invariant; applied to the calm world where the
classifier keeps the empire. -/
theorem independent_holder_invariant_witness :
    "e_x" ∈ filterProvincelessTitles
        (splitVassals [] calmTitles (filterIndependentTitles calmTitles)).1
        (splitVassals [] calmTitles (filterIndependentTitles calmTitles)).2 ∧
    ∃ gt, lookupT (splitVassals [] calmTitles (filterIndependentTitles calmTitles)).1 "e_x" =
        some gt ∧ gt.holder ≠ 0 := by
  have happ := independent_holder_invariant [] calmTitles (by decide) (by decide) (by decide)
  have hmem : "e_x" ∈ filterProvincelessTitles
      (splitVassals [] calmTitles (filterIndependentTitles calmTitles)).1
      (splitVassals [] calmTitles (filterIndependentTitles calmTitles)).2 := by decide
  have hlook : lookupT (splitVassals [] calmTitles (filterIndependentTitles calmTitles)).1
      "e_x" = some calmEmpire := by decide
  exact ⟨hmem, calmEmpire, hlook, happ "e_x" hmem calmEmpire hlook⟩

/-- C4 counterexample.  In the split world the kingdom `k_bad2` has no holder
(`holder = 0`) but plenty of land; vassal splitting liberates it and the
final independent-title set exposed downstream contains it with an empty
holder, violating the claimed invariant. -/
theorem independent_holder_counterexample :
    "k_bad2" ∈ filterProvincelessTitles
        (splitVassals splitChars splitTitles (filterIndependentTitles splitTitles)).1
        (splitVassals splitChars splitTitles (filterIndependentTitles splitTitles)).2 ∧
    (lookupT (splitVassals splitChars splitTitles (filterIndependentTitles splitTitles)).1
        "k_bad2").map Title.holder = some 0 := by
  have hfi : filterIndependentTitles splitTitles = ["e_emp"] := by decide
  have hc : splitCandidatesOf splitChars splitTitles "e_emp" splitEmpire = ["k_bad2"] := by
    simp +decide [splitCandidatesOf, liberates, relevantVassalPfx, vassalCoalesce,
      coalesceProvinces, lookupT, splitTitles, splitEmpire, splitCounty, splitKingdomBad,
      splitKingdomOther, splitChars, splitHolder, splitOtherHolder, hasPfx, natInsert,
      holderGov, splitThreshold, List.find?, List.foldl, List.filterMap, List.countP,
      List.countP.go]
    norm_num
  have hcol : collectSplitCandidates splitChars splitTitles ["e_emp"] = ["k_bad2"] := by
    unfold collectSplitCandidates
    simp only [List.foldl_cons, List.foldl_nil,
      show lookupT splitTitles "e_emp" = some splitEmpire from by decide, hc]
    decide
  have h1 : (splitVassals splitChars splitTitles (filterIndependentTitles splitTitles)).1 =
      List.foldl freeVassal splitTitles ["k_bad2"] := by
    rw [hfi]
    unfold splitVassals
    rw [hcol]
  have h2 : (splitVassals splitChars splitTitles (filterIndependentTitles splitTitles)).2 =
      ["e_emp", "k_bad2"] := by
    rw [hfi]
    unfold splitVassals
    rw [hcol]
    decide
  constructor
  · rw [h1, h2]
    decide
  · rw [h1]
    decide

/-! ## Claim C9: degraded-data recovery loop -/

theorem noEarlySanity_cons {m1 : ModSource} {rest : List ModSource}
    {chars : List (Nat × Character)} (h : noEarlySanity (m1 :: rest) chars) :
    noEarlySanity rest (if m1.hasDynFolder then m1.load chars else chars) := by
  intro q1 mm q2 hsplit hmm
  have hfull : m1 :: rest = (m1 :: q1) ++ mm :: q2 := by rw [hsplit]; rfl
  have := h (m1 :: q1) mm q2 hfull hmm
  simpa [applyFolders] using this

theorem noEarlySanity_head {m1 : ModSource} {rest : List ModSource}
    {chars : List (Nat × Character)} (h : noEarlySanity (m1 :: rest) chars)
    (hf : m1.hasDynFolder = true) : insanityCount (m1.load chars) ≠ 0 := by
  have := h [] m1 rest rfl hf
  simpa [applyFolders] using this

theorem applyFolders_cons (m1 : ModSource) (rest : List ModSource)
    (chars : List (Nat × Character)) :
    applyFolders (m1 :: rest) chars =
      applyFolders rest (if m1.hasDynFolder then m1.load chars else chars) := rfl

theorem rummage_stops_at_first (p1 : List ModSource) :
    ∀ (m : ModSource) (p2 : List ModSource) (chars : List (Nat × Character)),
    m.hasDynFolder = true → noEarlySanity p1 chars →
    insanityCount (m.load (applyFolders p1 chars)) = 0 →
    rummage (p1 ++ m :: p2) chars = (m.load (applyFolders p1 chars), true) := by
  induction p1 with
  | nil =>
    intro m p2 chars hm _ hz
    simp only [applyFolders, List.foldl_nil] at hz ⊢
    simp [rummage, hm, hz]
  | cons m1 rest ih =>
    intro m p2 chars hm hno hz
    have hshift : applyFolders (m1 :: rest) chars =
        applyFolders rest (if m1.hasDynFolder then m1.load chars else chars) := rfl
    have hno' := noEarlySanity_cons hno
    cases hf : m1.hasDynFolder with
    | false =>
      rw [hf] at hno'
      rw [hshift, hf] at hz ⊢
      have hstep : rummage ((m1 :: rest) ++ m :: p2) chars =
          rummage (rest ++ m :: p2) chars := by
        simp [rummage, hf]
      rw [hstep]
      simp only [if_neg Bool.false_ne_true] at hno' hz ⊢
      exact ih m p2 chars hm hno' hz
    | true =>
      rw [hf] at hno'
      rw [hshift, hf] at hz ⊢
      simp only [if_pos] at hno' hz ⊢
      have hz1 : ¬insanityCount (m1.load chars) = 0 := noEarlySanity_head hno hf
      have hstep : rummage ((m1 :: rest) ++ m :: p2) chars =
          rummage (rest ++ m :: p2) (m1.load chars) := by
        simp [rummage, hf, hz1]
      rw [hstep]
      exact ih m p2 (m1.load chars) hm hno' hz

theorem rummage_exhausts (sources : List ModSource) :
    ∀ chars : List (Nat × Character), noEarlySanity sources chars →
    rummage sources chars = (applyFolders sources chars, false) := by
  induction sources with
  | nil => intro chars _; rfl
  | cons m rest ih =>
    intro chars hno
    have hno' := noEarlySanity_cons hno
    cases hf : m.hasDynFolder with
    | false =>
      rw [hf] at hno'
      simp only [if_neg Bool.false_ne_true] at hno'
      have hstep : rummage (m :: rest) chars = rummage rest chars := by
        simp [rummage, hf]
      rw [hstep, applyFolders_cons, hf]
      simp only [if_neg Bool.false_ne_true]
      exact ih chars hno'
    | true =>
      rw [hf] at hno'
      simp only [if_pos] at hno'
      have hz1 : ¬insanityCount (m.load chars) = 0 := noEarlySanity_head hno hf
      have hstep : rummage (m :: rest) chars = rummage rest (m.load chars) := by
        simp [rummage, hf, hz1]
      rw [hstep, applyFolders_cons, hf]
      simp only [if_pos]
      exact ih (m.load chars) hno'

/-- C9.  The supplementary-dynasty loader is invoked iff some character lacks
religion or culture after linking; the rummage loop stops at the first
folder-bearing source after which no character is insane (no warning then);
and when every source fails to reach sanity the loop applies them all, ends
unsane, emits the warning and still returns normally (the function is total). -/
theorem dynasty_recovery_characterization (sources : List ModSource)
    (chars : List (Nat × Character)) :
    ((verifyReligionsAndCultures sources chars).2 = true ↔
      ∃ e ∈ chars, e.2.religion = "" ∨ e.2.culture = "") ∧
    (∀ p1 m p2, sources = p1 ++ m :: p2 → m.hasDynFolder = true →
      noEarlySanity p1 chars →
      insanityCount (m.load (applyFolders p1 chars)) = 0 →
      rummage sources chars = (m.load (applyFolders p1 chars), true) ∧
        (loadDynastiesFromMods sources chars).2 = false) ∧
    (noEarlySanity sources chars →
      rummage sources chars = (applyFolders sources chars, false) ∧
        (loadDynastiesFromMods sources chars).2 = true) := by
  refine ⟨?_, ?_, ?_⟩
  · constructor
    · intro h
      by_cases hz : insanityCount chars = 0
      · simp [verifyReligionsAndCultures, hz] at h
      · rcases List.countP_pos_iff.mp (Nat.pos_of_ne_zero hz) with ⟨e, he, hp⟩
        refine ⟨e, he, ?_⟩
        simpa [charInsane] using hp
    · intro ⟨e, he, hp⟩
      have hz : insanityCount chars ≠ 0 := by
        apply Nat.pos_iff_ne_zero.mp
        apply List.countP_pos_iff.mpr
        refine ⟨e, he, ?_⟩
        simpa [charInsane] using hp
      simp [verifyReligionsAndCultures, hz]
  · intro p1 m p2 hsplit hm hno hz
    subst hsplit
    have h := rummage_stops_at_first p1 m p2 chars hm hno hz
    refine ⟨h, ?_⟩
    simp [loadDynastiesFromMods, h]
  · intro hno
    have h := rummage_exhausts sources chars hno
    refine ⟨h, ?_⟩
    simp [loadDynastiesFromMods, h]

/-- C9 witness: one character missing a religion, a folder-less mod followed
by a fixing mod: the loader is invoked, skips the folder-less mod, stops at
the fixer, and emits no warning. -/
theorem dynasty_recovery_characterization_witness :
    (verifyReligionsAndCultures [modNoFolder, modFixer] insaneChars).2 = true ∧
    rummage [modNoFolder, modFixer] insaneChars =
      ([(1, { id := 1, religion := "r", culture := "c" })], true) ∧
    (loadDynastiesFromMods [modNoFolder, modFixer] insaneChars).2 = false := by
  have h := dynasty_recovery_characterization [modNoFolder, modFixer] insaneChars
  have hno : noEarlySanity [modNoFolder] insaneChars := by
    intro q1 mm q2 hsplit hmm
    cases q1 with
    | nil =>
      have hmm1 : mm = modNoFolder := by injection hsplit with h1 _; exact h1.symm
      subst hmm1
      exact absurd hmm (by decide)
    | cons a as =>
      injection hsplit with _ h2
      exact absurd h2 (by simp)
  have h2 := h.2.1 [modNoFolder] modFixer [] rfl rfl hno (by decide)
  refine ⟨?_, ?_, h2.2⟩
  · exact h.1.mpr ⟨(1, insaneChar), by simp [insaneChars], Or.inl rfl⟩
  · rw [h2.1]
    decide

/-! ## Claim C10: shatterHRE is a no-op on its three guard failures -/

/-! ## Claim C10: shatterHRE is a no-op on its three guard failures -/

/-- C10.  When the HRE mode is disabled, or the designated tag is absent from
the title table, or the designated title has no vassals, `shatterHRE` returns
(after logging) without mutating any title. -/
theorem shatterHRE_guard_noop (cfg : Configuration) (titles : TitleMap)
    (h : cfg.hre = IAmHRE.NONE ∨ lookupT titles (hreTag cfg) = none ∨
        ∃ t, lookupT titles (hreTag cfg) = some t ∧ t.vassals = []) :
    (shatterHRE cfg titles).1 = titles := by
  unfold shatterHRE
  rcases h with h | h | ⟨t, ht, hv⟩
  · simp [h]
  · by_cases hn : cfg.hre = IAmHRE.NONE
    · simp [hn]
    · simp [hn, h]
  · by_cases hn : cfg.hre = IAmHRE.NONE
    · simp [hn]
    · simp [hn, ht, hv]

/-- C10 witness: the disabled mode (and, in one table, an absent tag and a
vassal-less HRE) leave the table untouched. -/
theorem shatterHRE_guard_noop_witness :
    (shatterHRE { hre := IAmHRE.NONE } hreTitles).1 = hreTitles ∧
    (shatterHRE hreCfg [] ).1 = ([] : TitleMap) ∧
    (shatterHRE hreCfg [("e_hre", { name := "e_hre", holder := 5 })]).1 =
      [("e_hre", { name := "e_hre", holder := 5 })] := by
  refine ⟨?_, ?_, ?_⟩
  · exact shatterHRE_guard_noop _ _ (Or.inl rfl)
  · exact shatterHRE_guard_noop _ _ (Or.inr (Or.inl (by decide)))
  · exact shatterHRE_guard_noop _ _
      (Or.inr (Or.inr ⟨{ name := "e_hre", holder := 5 }, by decide, rfl⟩))

end CK2World
